import Mathlib

/-!
Verification of the relevance-scoring and recommendation subsystem of the
esp-idf-docs MCP server (src/esp_idf_docs_mcp/util.py and
src/esp_idf_docs_mcp/recommendations.py), as a shallow embedding in Lean.

Modelling conventions:
* Python strings are `List Char` (`Str` below).  The character classes used by
  the source's regexes (`\w`, `\s`, `str.lower`) are modelled over their ASCII
  core, which is the alphabet the corpus and all claims range over.
* Python floats are modelled as `ℚ`.  `math.log` is an unknown real function of
  its rational argument; the definitions that call it take it as an explicit
  parameter `log : ℚ → ℚ`, and every theorem holds for all `log`.
* Python dicts keyed by strings are association lists when key enumeration
  matters (the document index) and total functions `Str → Nat` defaulting to 0
  when only lookup matters (`defaultdict(int)` tables).
* `async` methods have no internal concurrency observable by the claims; they
  are modelled as pure functions.  A Python code path that may raise is
  modelled with `Except Str`.
-/

/-- Python strings, modelled as lists of characters. -/
abbrev Str := List Char

namespace PyStr

/-- Whitespace test used for Python's `\s` class and `str.split()` /
`str.strip()`, restricted to its ASCII core (space, tab, CR, LF). -/
def isWs (c : Char) : Bool := c.isWhitespace

/-- ASCII core of Python's `str.lower` on a single character. -/
def lowerChar (c : Char) : Char :=
  if c.isUpper then Char.ofNat (c.toNat + 32) else c

/-- ASCII core of the regex class `\w`: alphanumeric or underscore. -/
def isWordChar (c : Char) : Bool := c.isAlphanum || c == '_'

/-- Python `str.lower` over a whole string. -/
def lower (s : Str) : Str := s.map lowerChar

/-- Python `str.strip()`: remove leading and trailing whitespace. -/
def strip (s : Str) : Str :=
  (s.dropWhile isWs).reverse.dropWhile isWs |>.reverse

/-- Python `str.startswith`. -/
def startsWith (pre s : Str) : Bool := pre.isPrefixOf s

/-- Python `str.endswith`. -/
def endsWith (suf s : Str) : Bool := suf.isSuffixOf s

/-- Python `needle in hay` on strings: contiguous-substring containment. -/
def containsSub (needle : Str) : Str → Bool
  | [] => needle.isEmpty
  | c :: t => needle.isPrefixOf (c :: t) || containsSub needle t

/-- Streaming form of the substitution `re.sub(r"\s+", " ", text)`: a
whitespace character opens a run (emitting one space) when the previous
character was not whitespace, and is dropped when it continues a run. -/
def collapseWsAux (prevWs : Bool) : Str → Str
  | [] => []
  | c :: t =>
    if isWs c then
      if prevWs then collapseWsAux true t else ' ' :: collapseWsAux true t
    else c :: collapseWsAux false t

/-- Replace every maximal run of whitespace by one space: the substitution
`re.sub(r"\s+", " ", text)`. -/
def collapseWs (s : Str) : Str := collapseWsAux false s

/-- Python `str.split()` with no separator: split at every whitespace
character and drop the empty chunks, leaving the whitespace-delimited
words. -/
def splitWs (l : Str) : List Str :=
  (l.splitOnP isWs).filter (fun w => !w.isEmpty)

/-- Python `" ".join(words)`. -/
def joinWords : List Str → Str
  | [] => []
  | [w] => w
  | w :: ws => w ++ ' ' :: joinWords ws

/-- Python `"\n".join(lines)`. -/
def joinLines : List Str → Str
  | [] => []
  | [l] => l
  | l :: ls => l ++ '\n' :: joinLines ls

/-- Python `content.split("\n")`. -/
def splitLines (s : Str) : List Str :=
  s.splitOn '\n'

/-- Count of non-overlapping occurrences scanning left to right (helper for
`str.count` with a nonempty needle). -/
def countSubFrom (needle : Str) : Str → Nat
  | [] => 0
  | c :: t =>
    if needle.isPrefixOf (c :: t) then 1 + countSubFrom needle (t.drop (needle.length - 1))
    else countSubFrom needle t
termination_by s => s.length
decreasing_by
  · simp only [List.length_cons]
    exact Nat.lt_succ_of_le (List.drop_sublist ..).length_le
  · simp

/-- Python `hay.count(needle)`: non-overlapping occurrences; an empty needle
counts `len(hay) + 1`. -/
def countSub (needle hay : Str) : Nat :=
  if needle = [] then hay.length + 1 else countSubFrom needle hay

end PyStr

namespace TextProcessor

open PyStr

/-- The characters the substitution `re.sub(r"[^\w\s\-_.]", " ", text)`
keeps in place. -/
def keepChar (c : Char) : Bool := isWordChar c || isWs c || c == '-' || c == '_' || c == '.'

/-- The substitution `re.sub(r"[^\w\s\-_.]", " ", text)` on one
character. -/
def replChar (c : Char) : Char := if keepChar c then c else ' '

/-- TextProcessor.normalize_text: lowercase, collapse whitespace runs, strip
special characters to spaces, and re-join the words with single spaces. -/
def normalize_text (s : Str) : Str :=
  joinWords (splitWs ((collapseWs (lower s)).map replChar))

end TextProcessor

namespace PySub

open PyStr

/-- Generic left-to-right scan of `re.sub` over one line: `m` tries to match
a pattern at the head of its argument and returns the replacement text and
the remainder after the whole match; when it fails the head character is
copied.  The fuel only bounds the recursion depth: every matcher used below
consumes at least one character (`wrapMatchBound`, `linkMatchBound`), so
`subScan` hands the scan exactly enough fuel. -/
def subScanFuel (m : Str → Option (Str × Str)) : Nat → Str → Str
  | 0, l => l
  | _ + 1, [] => []
  | fuel + 1, c :: t =>
    match m (c :: t) with
    | some (mid, after) => mid ++ subScanFuel m fuel after
    | none => c :: subScanFuel m fuel t

/-- The `re.sub` scan with its fuel. -/
def subScan (m : Str → Option (Str × Str)) (l : Str) : Str := subScanFuel m l.length l

/-- Head match for the pattern `pre([^bad]+)post` where every character of
`post` equals `bad` (the shape of all the inline-markup regexes of the
source: greedy `[^bad]+` up to the next `bad` then the closing delimiter).
Returns the captured group and the text after the match. -/
def wrapMatch (pre : Str) (bad : Char) (post : Str) (l : Str) : Option (Str × Str) :=
  if pre.isPrefixOf l then
    let rest := l.drop pre.length
    let mid := rest.takeWhile (fun c => c != bad)
    let rest2 := rest.dropWhile (fun c => c != bad)
    if !mid.isEmpty && post.isPrefixOf rest2 then some (mid, rest2.drop post.length)
    else none
  else none

/-- Length bound needed by `subScan` for `wrapMatch`. -/
def wrapMatchBound (pre : Str) (bad : Char) (post : Str) :
    ∀ l mid after, wrapMatch pre bad post l = some (mid, after) → after.length < l.length := by
  intro l mid after h
  unfold wrapMatch at h
  split at h
  · dsimp only at h
    split at h
    · rename_i hcond
      rw [Bool.and_eq_true] at hcond
      rw [Option.some.injEq, Prod.mk.injEq] at h
      obtain ⟨-, ha⟩ := h
      have hmid : (List.takeWhile (fun c => c != bad) (List.drop pre.length l)) ≠ [] := by
        simpa using hcond.1
      have hmidlen : 0 < (List.takeWhile (fun c => c != bad) (List.drop pre.length l)).length :=
        List.length_pos.mpr hmid
      have e1 : List.takeWhile (fun c => c != bad) (List.drop pre.length l) ++
          List.dropWhile (fun c => c != bad) (List.drop pre.length l) =
          List.drop pre.length l := List.takeWhile_append_dropWhile ..
      have hlen := congrArg List.length e1
      rw [List.length_append, List.length_drop] at hlen
      have halen : after.length ≤
          (List.dropWhile (fun c => c != bad) (List.drop pre.length l)).length := by
        rw [← ha]
        exact (List.drop_sublist ..).length_le
      omega
    · exact absurd h (by simp)
  · exact absurd h (by simp)

/-- Head match for the Markdown link pattern `\[([^\]]+)\]\([^)]+\)`,
replaced by its label. -/
def linkMatch (l : Str) : Option (Str × Str) :=
  match l with
  | '[' :: rest =>
    let label := rest.takeWhile (fun c => c != ']')
    let r2 := rest.dropWhile (fun c => c != ']')
    if !label.isEmpty && [']', '('].isPrefixOf r2 then
      let r3 := r2.drop 2
      let url := r3.takeWhile (fun c => c != ')')
      let r4 := r3.dropWhile (fun c => c != ')')
      if !url.isEmpty && [')'].isPrefixOf r4 then some (label, r4.drop 1) else none
    else none
  | _ => none

/-- Length bound needed by `subScan` for `linkMatch`. -/
def linkMatchBound :
    ∀ l mid after, linkMatch l = some (mid, after) → after.length < l.length := by
  intro l mid after h
  unfold linkMatch at h
  split at h
  · rename_i rest
    dsimp only at h
    split at h
    · split at h
      · simp only [Option.some.injEq, Prod.mk.injEq] at h
        obtain ⟨-, ha⟩ := h
        have h1 : after.length ≤ (((rest.dropWhile (fun c => c != ']')).drop 2).dropWhile
            (fun c => c != ')')).length := by
          rw [← ha]; exact (List.drop_sublist ..).length_le
        have h2 : (((rest.dropWhile (fun c => c != ']')).drop 2).dropWhile
            (fun c => c != ')')).length ≤ ((rest.dropWhile (fun c => c != ']')).drop 2).length :=
          (List.dropWhile_sublist ..).length_le
        have h3 : ((rest.dropWhile (fun c => c != ']')).drop 2).length ≤
            (rest.dropWhile (fun c => c != ']')).length := (List.drop_sublist ..).length_le
        have h4 : (rest.dropWhile (fun c => c != ']')).length ≤ rest.length :=
          (List.dropWhile_sublist ..).length_le
        simp only [List.length_cons]
        omega
      · exact absurd h (by simp)
    · exact absurd h (by simp)
  · exact absurd h (by simp)

/-- Substitution `re.sub` for the pattern `pre([^bad]+)post` with replacement
`\1`, scanning left to right over non-overlapping matches. -/
def subWrap (pre : Str) (bad : Char) (post : Str) : Str → Str :=
  subScan (wrapMatch pre bad post)

/-- Substitution `re.sub(r"\[([^\]]+)\]\([^)]+\)", r"\1", line)`. -/
def subLink : Str → Str := subScan linkMatch

end PySub

namespace TextProcessor

open PyStr PySub

/-- One inline RST role substitution
`re.sub(r":role:`([^`]+)`", r"\1", line)`. -/
def subRole (role : Str) : Str → Str :=
  subWrap (':' :: (role ++ [':', '`'])) '`' ['`']

/-- The five inline RST role substitutions applied in source order
(ref, doc, func, class, meth). -/
def cleanInlineRst (l : Str) : Str :=
  subRole (String.toList "meth")
    (subRole (String.toList "class")
      (subRole (String.toList "func")
        (subRole (String.toList "doc")
          (subRole (String.toList "ref") l))))

/-- Loop body of TextProcessor.clean_rst_content over the remaining lines,
carrying the `in_directive` and `in_code_block` flags. -/
def cleanRstLines (inDirective inCodeBlock : Bool) : List Str → List Str
  | [] => []
  | line :: ls =>
    let stripped := strip line
    if startsWith (String.toList "..") stripped &&
        !startsWith (String.toList ".. _") stripped then
      cleanRstLines
        (if containsSub (String.toList "::") stripped then true else inDirective) inCodeBlock ls
    else if endsWith (String.toList "::") stripped then
      line :: cleanRstLines inDirective true ls
    else
      let inCode2 :=
        if inCodeBlock && !line.isEmpty && !(line.headD ' ').isWhitespace then false
        else inCodeBlock
      if inDirective then
        if !line.isEmpty && !(line.headD ' ').isWhitespace then
          cleanInlineRst line :: cleanRstLines false inCode2 ls
        else
          cleanRstLines true inCode2 ls
      else
        cleanInlineRst line :: cleanRstLines inDirective inCode2 ls

/-- TextProcessor.clean_rst_content: drop comment and directive lines, keep
code-block introducer lines verbatim, and strip inline roles elsewhere. -/
def clean_rst_content (content : Str) : Str :=
  joinLines (cleanRstLines false false (splitLines content))

/-- The four inline Markdown substitutions applied in source order
(bold, italic, inline code, links). -/
def cleanInlineMd (l : Str) : Str :=
  subLink
    (subWrap ['`'] '`' ['`']
      (subWrap ['*'] '*' ['*']
        (subWrap ['*', '*'] '*' ['*', '*'] l)))

/-- Loop body of TextProcessor.clean_markdown_content: YAML front-matter
removal (with the `front_matter_start` flag dance of the source) and inline
markup stripping.  `isFirst` tells whether the current line has index 0. -/
def cleanMdLines (isFirst inFrontMatter frontMatterStart : Bool) : List Str → List Str
  | [] => []
  | line :: ls =>
    let stripped := strip line
    if isFirst && stripped == String.toList "---" then
      cleanMdLines false true true ls
    else if inFrontMatter && stripped == String.toList "---" && !frontMatterStart then
      cleanMdLines false false frontMatterStart ls
    else if inFrontMatter then
      cleanMdLines false inFrontMatter false ls
    else
      cleanInlineMd line :: cleanMdLines false inFrontMatter frontMatterStart ls

/-- TextProcessor.clean_markdown_content. -/
def clean_markdown_content (content : Str) : Str :=
  joinLines (cleanMdLines true false false (splitLines content))

end TextProcessor

namespace Difflib

open PyStr

/-- Positions of `c` in `b`, ascending: difflib's `b2j` table for
`SequenceMatcher(None, a, b)`, including the autojunk rule (for
`len(b) >= 200`, characters filling more than `len(b)//100 + 1` positions
are dropped from the table). -/
def b2j (b : Str) (c : Char) : List Nat :=
  let idxs := (List.range b.length).filter (fun j => b.getD j ' ' == c)
  if b.length ≥ 200 && idxs.length > b.length / 100 + 1 then [] else idxs

/-- The best matching block found so far: `i`, `j` and size, exactly the
triple `find_longest_match` threads through its loops. -/
structure FlmBest where
  besti : Nat
  bestj : Nat
  bestsize : Nat
deriving DecidableEq

/-- Outer loop of the `j2len` dynamic program of `find_longest_match`: one
step per index `i` of `a` in `[alo, ahi)`, threading the previous row and
the best block.  The inner fold is the loop over the positions `j` of `a[i]`
in `b` restricted to `[blo, bhi)`. -/
def flmLoop (a b : Str) (blo bhi : Nat) : List Nat → (Nat → Nat) × FlmBest → (Nat → Nat) × FlmBest
  | [], st => st
  | i :: is, (prev, best) =>
    let js := (b2j b (a.getD i ' ')).filter (fun j => decide (blo ≤ j) && decide (j < bhi))
    let st2 := js.foldl
      (fun (st : (Nat → Nat) × FlmBest) j =>
        let k := (if j = 0 then 0 else prev (j - 1)) + 1
        (fun x => if x = j then k else st.1 x,
         if k > st.2.bestsize then ⟨i + 1 - k, j + 1 - k, k⟩ else st.2))
      ((fun _ => 0), best)
    flmLoop a b blo bhi is st2

/-- The left extension loop of `find_longest_match` (with `isjunk = None`
the `isbjunk` guard is always true).  Each iteration decrements `besti`,
which the guard keeps above `alo`, so fuel `besti` runs the loop to its
Python exit condition. -/
def extLeftFuel (a b : Str) (alo blo : Nat) : Nat → Nat → Nat → Nat → Nat × Nat × Nat
  | 0, besti, bestj, bestsize => (besti, bestj, bestsize)
  | fuel + 1, besti, bestj, bestsize =>
    if alo < besti && blo < bestj && (a.getD (besti - 1) ' ' == b.getD (bestj - 1) ' ') then
      extLeftFuel a b alo blo fuel (besti - 1) (bestj - 1) (bestsize + 1)
    else (besti, bestj, bestsize)

/-- The left extension loop with its fuel. -/
def extLeft (a b : Str) (alo blo besti bestj bestsize : Nat) : Nat × Nat × Nat :=
  extLeftFuel a b alo blo besti besti bestj bestsize

/-- The right extension loop of `find_longest_match`.  Each iteration
increments `bestsize`, which the guard keeps below `ahi - besti`, so fuel
`ahi` runs the loop to its Python exit condition. -/
def extRightFuel (a b : Str) (ahi bhi : Nat) : Nat → Nat → Nat → Nat → Nat
  | 0, _, _, bestsize => bestsize
  | fuel + 1, besti, bestj, bestsize =>
    if besti + bestsize < ahi && bestj + bestsize < bhi &&
        (a.getD (besti + bestsize) ' ' == b.getD (bestj + bestsize) ' ') then
      extRightFuel a b ahi bhi fuel besti bestj (bestsize + 1)
    else bestsize

/-- The right extension loop with its fuel. -/
def extRight (a b : Str) (ahi bhi : Nat) (besti bestj bestsize : Nat) : Nat :=
  extRightFuel a b ahi bhi ahi besti bestj bestsize

/-- difflib `SequenceMatcher.find_longest_match` over `[alo, ahi) x [blo, bhi)`
for `SequenceMatcher(None, a, b)`: the `j2len` dynamic program, then the
non-junk extension loops.  With `isjunk = None` the junk set is empty, so the
junk extension loops never fire and are omitted.  All indexing stays in range
for the arguments the block recursion supplies. -/
def find_longest_match (a b : Str) (alo ahi blo bhi : Nat) : FlmBest :=
  let dp := flmLoop a b blo bhi (List.range' alo (ahi - alo)) ((fun _ => 0), ⟨alo, blo, 0⟩)
  let best := dp.2
  let ext := extLeft a b alo blo best.besti best.bestj best.bestsize
  let bs2 := extRight a b ahi bhi ext.1 ext.2.1 ext.2.2
  ⟨ext.1, ext.2.1, bs2⟩

/-- Recursion of `get_matching_blocks`, summing the sizes of the blocks found
in a range and in the two sub-ranges either side of the longest match.  The
fuel only bounds the depth; the initial fuel below strictly dominates it
because every sub-range is strictly smaller. -/
def matchingTotal (a b : Str) : Nat → Nat → Nat → Nat → Nat → Nat
  | 0, _, _, _, _ => 0
  | fuel + 1, alo, ahi, blo, bhi =>
    let m := find_longest_match a b alo ahi blo bhi
    if m.bestsize = 0 then 0
    else
      (if alo < m.besti && blo < m.bestj then matchingTotal a b fuel alo m.besti blo m.bestj
       else 0) +
      m.bestsize +
      (if m.besti + m.bestsize < ahi && m.bestj + m.bestsize < bhi then
        matchingTotal a b fuel (m.besti + m.bestsize) ahi (m.bestj + m.bestsize) bhi
       else 0)

/-- Total size of difflib's matching blocks over the whole strings (the
adjacent-block merge in `get_matching_blocks` preserves the total size,
which is all `ratio` reads). -/
def matching_blocks_total (a b : Str) : Nat :=
  matchingTotal a b (a.length + b.length + 1) 0 a.length 0 b.length

/-- difflib `SequenceMatcher.ratio()` for `SequenceMatcher(None, a, b)`:
`2*M / (len(a)+len(b))`, and 1.0 when both strings are empty. -/
def ratio (a b : Str) : ℚ :=
  if a.length + b.length = 0 then 1
  else 2 * (matching_blocks_total a b : ℚ) / ((a.length : ℚ) + (b.length : ℚ))

end Difflib

namespace TextProcessor

open PyStr

/-- Heading record produced by TextProcessor.extract_headings. -/
structure Heading where
  level : Nat
  title : Str
  line : Nat
  type : Str
deriving DecidableEq

/-- The RST underline adornment characters accepted by extract_headings. -/
def rstAdornment (c : Char) : Bool :=
  c == '=' || c == '-' || c == '~' || c == '^' || c == '"' || c == '\'' ||
  c == '#' || c == '*' || c == '+' || c == '<' || c == '>'

/-- The `level_map` of extract_headings, defaulting to 3. -/
def rstLevelOf (c : Char) : Nat :=
  if c == '=' then 1 else if c == '-' then 2 else if c == '~' then 3
  else if c == '^' then 4 else if c == '"' then 5 else if c == '\'' then 6 else 3

/-- Match of the Markdown heading regex `^(#{1,6})\s+(.+)$` against an
already-stripped line: a maximal run of 1 to 6 `#`, one or more whitespace
characters, then the (nonempty) title. -/
def mdHeadingMatch (stripped : Str) : Option (Nat × Str) :=
  let hashes := stripped.takeWhile (fun c => c == '#')
  let rest := stripped.dropWhile (fun c => c == '#')
  let title := rest.dropWhile isWs
  if 1 ≤ hashes.length && hashes.length ≤ 6 && !rest.isEmpty &&
      isWs (rest.headD 'x') && !title.isEmpty then
    some (hashes.length, title)
  else none

/-- Loop of TextProcessor.extract_headings: Markdown `#` headings, and RST
headings recognised from a same-character underline at least as long as the
heading text on the following line.  `i` is the current 0-based index. -/
def extractHeadingsLoop (i : Nat) : List Str → List Heading
  | [] => []
  | line :: rest =>
    let stripped := strip line
    match mdHeadingMatch stripped with
    | some lt =>
      ⟨lt.1, lt.2, i + 1, String.toList "markdown"⟩ :: extractHeadingsLoop (i + 1) rest
    | none =>
      (match rest with
       | next :: _ =>
         let ns := strip next
         if !stripped.isEmpty && decide (ns.length ≥ stripped.length) && !ns.isEmpty &&
             ns.all (fun c => c == ns.headD ' ') && rstAdornment (ns.headD ' ') then
           [⟨rstLevelOf (ns.headD ' '), stripped, i + 1, String.toList "rst"⟩]
         else []
       | [] => []) ++ extractHeadingsLoop (i + 1) rest

/-- TextProcessor.extract_headings. -/
def extract_headings (content : Str) : List Heading :=
  extractHeadingsLoop 0 (splitLines content)

/-- Code block record produced by TextProcessor.extract_code_blocks. -/
structure CodeBlock where
  language : Str
  code : Str
  type : Str
deriving DecidableEq

/-- Leading-whitespace width of a line. -/
def indentOf (l : Str) : Nat := l.length - (l.dropWhile isWs).length

/-- Loop for the RST `.. code-block::` pattern of extract_code_blocks,
modelled at line granularity: the regex `.. code-block::\s*(\w+)?\s*\n`
anchors a block at a marker line, and its body `((?:\s+.*\n?)*)` is the
following run of blank-or-indented lines.  The dedent mirrors the source's
common-indentation removal (with minimum 0 for an all-blank body, where the
source's `min()` over an empty generator would raise instead; no claim
exercises that corner).  Each step consumes at least one line, so the line
count as fuel runs the scan to completion. -/
def extractRstBlocksLoop : Nat → List Str → List CodeBlock
  | 0, _ => []
  | _ + 1, [] => []
  | fuel + 1, line :: rest =>
    if startsWith (String.toList ".. code-block::") line then
      let after := line.drop (String.toList ".. code-block::").length
      let lang := (after.dropWhile isWs).takeWhile isWordChar
      let body := rest.takeWhile (fun l => l.isEmpty || isWs (l.headD 'x'))
      let rest2 := rest.dropWhile (fun l => l.isEmpty || isWs (l.headD 'x'))
      let nonblank := body.filter (fun l => !(strip l).isEmpty)
      let minIndent := ((nonblank.map indentOf).min?).getD 0
      let code := joinLines (body.map (fun l => if (strip l).isEmpty then l else l.drop minIndent))
      ⟨(if lang.isEmpty then String.toList "text" else lang), strip code, String.toList "rst"⟩ ::
        extractRstBlocksLoop fuel rest2
    else extractRstBlocksLoop fuel rest

/-- Loop for the Markdown fenced-block pattern of extract_code_blocks,
modelled at line granularity: an opening fence line, a non-greedy body up to
the first closing fence line, skipped entirely when no closing fence
follows. -/
def extractMdBlocksLoop : Nat → List Str → List CodeBlock
  | 0, _ => []
  | _ + 1, [] => []
  | fuel + 1, line :: rest =>
    if startsWith (String.toList "```") line then
      let lang := (line.drop 3).takeWhile isWordChar
      let body := rest.takeWhile (fun l => !startsWith (String.toList "```") l)
      if (rest.dropWhile (fun l => !startsWith (String.toList "```") l)).isEmpty then []
      else
        ⟨(if lang.isEmpty then String.toList "text" else lang), strip (joinLines body),
          String.toList "markdown"⟩ ::
          extractMdBlocksLoop fuel
            ((rest.dropWhile (fun l => !startsWith (String.toList "```") l)).drop 1)
    else extractMdBlocksLoop fuel rest

/-- TextProcessor.extract_code_blocks: RST blocks first (one `finditer`
pass), then Markdown fenced blocks (a second pass). -/
def extract_code_blocks (content : Str) : List CodeBlock :=
  extractRstBlocksLoop (splitLines content).length (splitLines content) ++
    extractMdBlocksLoop (splitLines content).length (splitLines content)

end TextProcessor

/-- Configuration for search operations (util.SearchConfig), with the source
defaults.  Floats are rationals here. -/
structure SearchConfig where
  max_results : Nat := 20
  max_matches_per_file : Nat := 5
  max_query_length : Nat := 100
  context_lines : Nat := 2
  fuzzy_threshold : ℚ := 6/10
  enable_stemming : Bool := false
  cache_size : Nat := 100
deriving DecidableEq

/-- Metadata for a documentation file (util.DocumentMetadata). -/
structure DocumentMetadata where
  file_path : Str
  size_bytes : Nat
  line_count : Nat
  word_count : Nat
  last_modified : ℚ
  encoding : Str
  doc_type : Str
  hash_md5 : Str
deriving DecidableEq

/-- One extracted match record passed to calculate_relevance_score; the
function reads only the number of matches, so the record is opaque. -/
structure MatchRec where
  line : Nat
deriving DecidableEq

namespace SearchEngine

open PyStr

/-- SearchEngine.fuzzy_match.  The `threshold` parameter models the optional
Python float argument; `threshold or self.config.fuzzy_threshold` makes a
supplied 0.0 fall back to the configured default (Python falsiness), which
the `some r` branch mirrors. -/
def fuzzy_match (cfg : SearchConfig) (query text : Str) (threshold : Option ℚ) : Bool :=
  let th := match threshold with
    | none => cfg.fuzzy_threshold
    | some r => if r = 0 then cfg.fuzzy_threshold else r
  let query_norm := TextProcessor.normalize_text query
  let text_norm := TextProcessor.normalize_text text
  if containsSub query_norm text_norm then true
  else decide (th ≤ Difflib.ratio query_norm text_norm)

/-- Python `os.path.basename` (POSIX): the part after the last slash. -/
def basename (p : Str) : Str := (p.reverse.takeWhile (fun c => c != '/')).reverse

/-- SearchEngine.calculate_relevance_score, with `now` the value of
`time.time()` at the call. -/
def calculate_relevance_score (query content : Str) (matchList : List MatchRec)
    (metadata : DocumentMetadata) (now : ℚ) : ℚ :=
  let query_lower := lower query
  let content_lower := lower content
  let score1 : ℚ := (matchList.length : ℚ) * 10
  let score2 := score1 + (countSub query_lower content_lower : ℚ) * 15
  let headings := TextProcessor.extract_headings content
  let score3 := score2 + (headings.map (fun h =>
      if containsSub query_lower (lower h.title) then max (30 - (h.level : ℚ) * 5) 10
      else 0)).sum
  let file_name := lower (basename metadata.file_path)
  let score4 := score3 + (if containsSub query_lower file_name then 25 else 0)
  let score5 := score4 + (if metadata.doc_type = String.toList "rst" then 5 else 0)
  let age_days := (now - metadata.last_modified) / 86400
  let score6 := score5 + (if age_days < 30 then 10 else if age_days < 90 then 5 else 0)
  let score7 :=
    if metadata.word_count > 0 then
      score6 * (1/2 + 1/2 * min (1000 / (metadata.word_count : ℚ)) 1)
    else score6
  min score7 100

end SearchEngine

namespace DocumentIndexer

open PyStr

/-- Skip patterns of DocumentIndexer._extract_description, as predicates on an
already-stripped nonempty line: `^=+$`, `^-+$`, `^#+\s`, `^\.\.\s`, `^:\w+:`,
`^\*+$`. -/
def isSkipLine (l : Str) : Bool :=
  (!l.isEmpty && l.all (fun c => c == '=')) ||
  (!l.isEmpty && l.all (fun c => c == '-')) ||
  (!(l.takeWhile (fun c => c == '#')).isEmpty &&
    isWs ((l.dropWhile (fun c => c == '#')).headD 'x')) ||
  (startsWith (String.toList "..") l && isWs ((l.drop 2).headD 'x')) ||
  (l.headD 'x' == ':' && !((l.drop 1).takeWhile isWordChar).isEmpty &&
    ((l.drop 1).dropWhile isWordChar).headD 'x' == ':') ||
  (!l.isEmpty && l.all (fun c => c == '*'))

/-- Accumulation loop of _extract_description: keep qualifying lines until
the join of the accumulator reaches `max_length`. -/
def descLoop (maxLength : Nat) (acc : List Str) : List Str → List Str
  | [] => acc
  | l :: ls =>
    if isSkipLine l || l.length < 20 then descLoop maxLength acc ls
    else
      let acc2 := acc ++ [l]
      if (joinWords acc2).length ≥ maxLength then acc2
      else descLoop maxLength acc2 ls

/-- DocumentIndexer._extract_description with its default `max_length = 200`:
join the qualifying lines, truncate with an ellipsis marker, and fall back to
the fixed sentinel. -/
def extract_description (content : Str) (maxLength : Nat := 200) : Str :=
  let lines := (splitLines content).map strip |>.filter (fun l => !l.isEmpty)
  let description := joinWords (descLoop maxLength [] lines)
  let description2 :=
    if description.length > maxLength then description.take maxLength ++ String.toList "..."
    else description
  if description2.isEmpty then String.toList "No description available." else description2

/-- One entry of `DocumentIndexer._document_index` (the per-document dict
built by build_index).  `term_frequency` models `Counter(words)` as the total
count function of the word list; a term is "in" the counter iff its count is
at least 1.  The borrowed `metadata` record and the derived `code_blocks`
and `content_length` fields are carried too; only timing statistics are
dropped. -/
structure IndexEntry where
  title : Str
  description : Str
  word_count : Nat
  headings : List TextProcessor.Heading
  code_blocks : List TextProcessor.CodeBlock
  term_frequency : Str → Nat
  content_length : Nat

/-- The mutable state of a DocumentIndexer: the document index as an
association list in insertion order (Python dict semantics), the global
`_term_frequency` and `_document_frequency` defaultdicts as total functions
defaulting to 0, and the document counter. -/
structure IndexState where
  documentIndex : List (Str × IndexEntry)
  termFrequency : Str → Str → Nat
  documentFrequency : Str → Nat
  totalDocuments : Nat

/-- The freshly-constructed indexer state (DocumentIndexer.__init__). -/
def emptyIndexState : IndexState :=
  ⟨[], fun _ _ => 0, fun _ => 0, 0⟩

/-- Python dict assignment `d[k] = v` on an association list: replace in
place when the key exists, append otherwise. -/
def dictInsert (k : Str) (v : IndexEntry) : List (Str × IndexEntry) → List (Str × IndexEntry)
  | [] => [(k, v)]
  | (k2, v2) :: rest =>
    if k2 = k then (k, v) :: rest else (k2, v2) :: dictInsert k v rest

/-- Python dict lookup `d.get(k)` on the association list. -/
def dictGet (k : Str) : List (Str × IndexEntry) → Option IndexEntry
  | [] => none
  | (k2, v2) :: rest => if k2 = k then some v2 else dictGet k rest

/-- One document offered to build_index: the path projections the loop body
reads (`relative_to`, `stem`, `suffix`), and the fallible part of the
iteration (metadata creation, encoding detection and `read_text`) as an
`Except` carrying the raw content. -/
structure BuildItem where
  relPath : Str
  stem : Str
  suffix : Str
  fetch : Except Str Str

/-- The per-suffix markup cleaning of the build loop. -/
def buildCleaned (item : BuildItem) (content : Str) : Str :=
  if item.suffix = String.toList ".rst" then TextProcessor.clean_rst_content content
  else if item.suffix = String.toList ".md" then TextProcessor.clean_markdown_content content
  else content

/-- The word list of a document as the build loop derives it: clean per
suffix, normalize, split on whitespace. -/
def buildWords (item : BuildItem) (content : Str) : List Str :=
  splitWs (TextProcessor.normalize_text (buildCleaned item content))

/-- The index entry stored for one successfully-read document: title from
the first heading (filename stem fallback), extracted description, word
count, headings, code blocks, `Counter(words)` as the count function of the
word list, and the cleaned-content length. -/
def buildEntry (item : BuildItem) (content : Str) : IndexEntry :=
  { title :=
      match TextProcessor.extract_headings content with
      | [] => item.stem
      | h :: _ => h.title
    description := extract_description (buildCleaned item content)
    word_count := (buildWords item content).length
    headings := TextProcessor.extract_headings content
    code_blocks := TextProcessor.extract_code_blocks content
    term_frequency := fun t => (buildWords item content).count t
    content_length := (buildCleaned item content).length }

/-- Loop body of DocumentIndexer.build_index for one file.  A fetch error is
the `except` branch: log and continue with the state unchanged.  On success
the content is cleaned per suffix, normalized and split; the entry is stored
under the relative path; the global tables are updated, `+1` to
`document_frequency` for every distinct word (`Counter` items all have count
at least 1, so the source's `count > 0` test is the `words.count t > 0`
guard); and the local `indexed_count` (threaded as `totalDocuments`,
see build_index below) is incremented. -/
def buildStep (st : IndexState) (item : BuildItem) : IndexState :=
  match item.fetch with
  | .error _ => st
  | .ok content =>
    { documentIndex := dictInsert item.relPath (buildEntry item content) st.documentIndex
      termFrequency := fun p t =>
        if p = item.relPath then (buildWords item content).count t else st.termFrequency p t
      documentFrequency := fun t =>
        if (buildWords item content).count t > 0 then st.documentFrequency t + 1
        else st.documentFrequency t
      totalDocuments := st.totalDocuments + 1 }

/-- DocumentIndexer.build_index over the collaborator-enumerated files.  The
local `indexed_count` starts at 0 and is assigned to `_total_documents` at
the end; threading it through `totalDocuments` from 0 yields the same final
state.  The other tables are never cleared: a second build accumulates onto
the first. -/
def build_index (st : IndexState) (items : List BuildItem) : IndexState :=
  items.foldl buildStep { st with totalDocuments := 0 }

/-- DocumentIndexer.calculate_tf_idf_similarity, with `log` standing for
`math.log`. -/
def calculate_tf_idf_similarity (log : ℚ → ℚ) (st : IndexState)
    (query_terms : List Str) (document_path : Str) : ℚ :=
  match dictGet document_path st.documentIndex with
  | none => 0
  | some doc_info =>
    (query_terms.map (fun term =>
      if doc_info.term_frequency term ≥ 1 then
        let tf : ℚ :=
          if doc_info.word_count > 0 then
            (doc_info.term_frequency term : ℚ) / (doc_info.word_count : ℚ)
          else 0
        let df := st.documentFrequency term
        let idf : ℚ :=
          if df > 0 then log ((st.totalDocuments : ℚ) / (df : ℚ)) else 0
        tf * idf
      else 0)).sum

/-- DocumentIndexer.get_all_documents: the keys of the document index in
insertion order. -/
def get_all_documents (st : IndexState) : List Str :=
  st.documentIndex.map (fun p => p.1)

end DocumentIndexer

/-- A single document recommendation (recommendations.Recommendation).  The
auxiliary `metadata` dict is a heterogeneous bag read by no claim and is
omitted from the model. -/
structure Recommendation where
  file_path : Str
  title : Str
  description : Str
  relevance_score : ℚ
  recommendation_type : Str
deriving DecidableEq

/-- The `metadata` dict of a RecommendationResponse: the success shape
(count and the deduplicated type list; the wall-clock `search_time_ms` and
the index statistics are not modelled) or the `except` shape carrying the
stringified exception. -/
inductive ResponseMetadata where
  | ok (recommendation_count : Nat) (recommendation_types : List Str)
  | error (msg : Str)
deriving DecidableEq

/-- Response containing multiple recommendations
(recommendations.RecommendationResponse). -/
structure RecommendationResponse where
  query : Str
  recommendations : List Recommendation
  metadata : ResponseMetadata
deriving DecidableEq

namespace RecommendationEngine

open PyStr DocumentIndexer

/-- Score-descending comparison on recommendations, the key order of
`sorted(..., key=lambda x: x.relevance_score, reverse=True)`. -/
def recGE (a b : Recommendation) : Prop := b.relevance_score ≤ a.relevance_score

instance : DecidableRel recGE := fun a b => inferInstanceAs (Decidable (_ ≤ _))

instance : IsTotal Recommendation recGE := ⟨fun a b => le_total b.relevance_score a.relevance_score⟩

instance : IsTrans Recommendation recGE := ⟨fun _ _ _ h1 h2 => le_trans h2 h1⟩

/-- Score-descending comparison on the `(doc_path, score, doc_info)` triples
the generators sort before truncation. -/
def tripleGE (a b : Str × ℚ × IndexEntry) : Prop := b.2.1 ≤ a.2.1

instance : DecidableRel tripleGE := fun a b => inferInstanceAs (Decidable (_ ≤ _))

/-- RecommendationEngine._get_content_similarity_recommendations: TF-IDF plus
per-term title and per-heading bonuses, positive scores only, sorted
descending (stably, as Python's sort), top `limit`. -/
def content_similarity_recommendations (log : ℚ → ℚ) (st : IndexState)
    (query : Str) (limit : Nat) : List Recommendation :=
  let query_terms := splitWs (TextProcessor.normalize_text query)
  let doc_scores := (get_all_documents st).filterMap (fun doc_path =>
    match dictGet doc_path st.documentIndex with
    | none => none
    | some doc_info =>
      let tf_idf_score := calculate_tf_idf_similarity log st query_terms doc_path
      let title_bonus : ℚ := (query_terms.map (fun term =>
          if containsSub term (lower doc_info.title) then (10 : ℚ) else 0)).sum
      let heading_bonus : ℚ := (doc_info.headings.map (fun h =>
          (query_terms.map (fun term =>
            if containsSub term (lower h.title) then (5 : ℚ) / (h.level : ℚ) else 0)).sum)).sum
      let total_score := tf_idf_score + title_bonus + heading_bonus
      if total_score > 0 then some (doc_path, total_score, doc_info) else none)
  ((doc_scores.insertionSort tripleGE).take limit).map (fun x =>
    ⟨x.1, x.2.2.title, x.2.2.description, x.2.1, String.toList "content_similarity"⟩)

/-- The fixed `important_patterns` list of
_get_popular_recommendations: regex `(head, some tail)` stands for
`head.?tail`, `(head, none)` for a plain substring pattern. -/
def important_patterns : List ((Str × Option Str) × Str × Nat) :=
  [((String.toList "getting", some (String.toList "started")),
      (String.toList "Getting Started Guide", 15)),
   ((String.toList "api", some (String.toList "reference")),
      (String.toList "API Reference", 12)),
   ((String.toList "example", none), (String.toList "Code Examples", 10)),
   ((String.toList "tutorial", none), (String.toList "Tutorial", 10)),
   ((String.toList "quick", some (String.toList "start")),
      (String.toList "Quick Start Guide", 8)),
   ((String.toList "overview", none), (String.toList "Overview Documentation", 6))]

/-- Python `re.search` for the two pattern shapes of `important_patterns`:
a plain substring, or `head.?tail` (an optional single non-newline character
between the two literals). -/
def reSearchPat (head : Str) (tail : Option Str) (s : Str) : Bool :=
  match tail with
  | none => containsSub head s
  | some tl =>
    (List.range (s.length + 1)).any (fun i =>
      let t := s.drop i
      (head ++ tl).isPrefixOf t ||
      (head.isPrefixOf t &&
        match t.drop head.length with
        | c :: u => c != '\n' && tl.isPrefixOf u
        | [] => false))

/-- The recommendation_type string
`f"popular_{description.lower().replace(' ', '_')}"`. -/
def popularType (description : Str) : Str :=
  String.toList "popular_" ++ (lower description).map (fun c => if c == ' ' then '_' else c)

/-- RecommendationEngine._get_popular_recommendations: first matching
importance pattern (no stacking), structural bonuses, gated on a query term
appearing in title or description, positive scores only, sorted descending,
top `limit` (the caller passes `limit // 2`). -/
def popular_recommendations (st : IndexState) (query : Str) (limit : Nat) :
    List Recommendation :=
  let query_lower := lower query
  let recs := (get_all_documents st).filterMap (fun doc_path =>
    match dictGet doc_path st.documentIndex with
    | none => none
    | some doc_info =>
      let firstPat := important_patterns.find? (fun p =>
        reSearchPat p.1.1 p.1.2 (lower doc_path) || reSearchPat p.1.1 p.1.2 (lower doc_info.title))
      let score1 : ℚ := match firstPat with
        | some p => (p.2.2 : ℚ)
        | none => 0
      let recommendation_type := match firstPat with
        | some p => popularType p.2.1
        | none => String.toList "popular"
      let score2 := score1 + (if doc_info.word_count > 1000 then (5 : ℚ) else 0)
      let score3 := score2 + (if doc_info.headings.length > 5 then (3 : ℚ) else 0)
      let score4 := score3 + (if doc_info.code_blocks.length > 0 then (4 : ℚ) else 0)
      let query_relevant := (splitWs query_lower).any (fun term =>
        containsSub term (lower doc_info.title) || containsSub term (lower doc_info.description))
      if score4 > 0 && query_relevant then
        some (⟨doc_path, doc_info.title, doc_info.description, score4, recommendation_type⟩ :
          Recommendation)
      else none)
  (recs.insertionSort recGE).take limit

/-- The fixed `api_relationships` synonym table of
_get_related_api_recommendations, in source order. -/
def api_relationships : List (Str × List Str) :=
  [(String.toList "wifi", [String.toList "esp_wifi", String.toList "wireless",
      String.toList "ap", String.toList "sta", String.toList "station", String.toList "network"]),
   (String.toList "bluetooth", [String.toList "ble", String.toList "bt",
      String.toList "classic", String.toList "gatt", String.toList "gap"]),
   (String.toList "gpio", [String.toList "pin", String.toList "digital",
      String.toList "input", String.toList "output", String.toList "interrupt"]),
   (String.toList "uart", [String.toList "serial", String.toList "communication",
      String.toList "usart", String.toList "console"]),
   (String.toList "spi", [String.toList "serial", String.toList "peripheral",
      String.toList "interface", String.toList "master", String.toList "slave"]),
   (String.toList "i2c", [String.toList "iic", String.toList "two-wire",
      String.toList "twi", String.toList "master", String.toList "slave"]),
   (String.toList "timer", [String.toList "countdown", String.toList "alarm",
      String.toList "interrupt", String.toList "hardware"]),
   (String.toList "adc", [String.toList "analog", String.toList "digital",
      String.toList "converter", String.toList "voltage"]),
   (String.toList "dac", [String.toList "digital", String.toList "analog",
      String.toList "converter", String.toList "output"]),
   (String.toList "pwm", [String.toList "pulse", String.toList "width",
      String.toList "modulation", String.toList "signal"]),
   (String.toList "nvs", [String.toList "storage", String.toList "flash",
      String.toList "partition", String.toList "key-value"]),
   (String.toList "spiffs", [String.toList "filesystem", String.toList "flash",
      String.toList "storage"]),
   (String.toList "fatfs", [String.toList "filesystem", String.toList "fat",
      String.toList "storage", String.toList "sdcard"]),
   (String.toList "freertos", [String.toList "rtos", String.toList "task",
      String.toList "scheduler", String.toList "queue", String.toList "semaphore"]),
   (String.toList "esp32", [String.toList "esp-32", String.toList "espressif",
      String.toList "chip", String.toList "mcu"]),
   (String.toList "http", [String.toList "client", String.toList "server",
      String.toList "request", String.toList "response", String.toList "web"]),
   (String.toList "mqtt", [String.toList "message", String.toList "broker",
      String.toList "publish", String.toList "subscribe"]),
   (String.toList "json", [String.toList "parse", String.toList "generate",
      String.toList "data", String.toList "format"]),
   (String.toList "ota", [String.toList "update", String.toList "firmware",
      String.toList "upgrade", String.toList "download"]),
   (String.toList "security", [String.toList "encryption", String.toList "tls",
      String.toList "ssl", String.toList "crypto", String.toList "hash"])]

/-- RecommendationEngine._get_related_api_recommendations: expand the query
through the synonym table into a set of related terms (a Python set; scores
sum over distinct terms, so a deduplicated list is an exact model), then
score each document, positive scores only, sorted descending, top `limit`
(the caller passes `limit // 2`). -/
def related_api_recommendations (st : IndexState) (query : Str) (limit : Nat) :
    List Recommendation :=
  let query_lower := lower query
  let related_terms := ((api_relationships.filter (fun kv =>
      containsSub kv.1 query_lower || kv.2.any (fun term => containsSub term query_lower))).foldl
      (fun acc kv => acc ++ kv.2 ++ [kv.1]) []).dedup
  if related_terms.isEmpty then []
  else
    let recs := (get_all_documents st).filterMap (fun doc_path =>
      match dictGet doc_path st.documentIndex with
      | none => none
      | some doc_info =>
        let doc_text := lower (doc_info.title ++ ' ' :: doc_info.description)
        let score1 : ℚ := (related_terms.map (fun term =>
            if containsSub term doc_text then (3 : ℚ) else 0)).sum
        let score2 := score1 + (doc_info.headings.map (fun h =>
            (related_terms.map (fun term =>
              if containsSub term (lower h.title) then (5 : ℚ) else 0)).sum)).sum
        let score3 := score2 +
          (if containsSub (String.toList "api") (lower doc_path) ||
              containsSub (String.toList "reference") (lower doc_path) then (8 : ℚ) else 0)
        if score3 > 0 then
          some (⟨doc_path, doc_info.title, doc_info.description, score3,
            String.toList "related_api"⟩ : Recommendation)
        else none)
    (recs.insertionSort recGE).take limit

/-- The `seen_files` dedup loop of get_recommendations: keep the first
occurrence of each file_path in the given (already sorted) order. -/
def dedupByPath (seen : List Str) : List Recommendation → List Recommendation
  | [] => []
  | r :: rest =>
    if r.file_path ∈ seen then dedupByPath seen rest
    else r :: dedupByPath (r.file_path :: seen) rest

/-- Body of RecommendationEngine.get_recommendations given the outcomes of
the three awaited generators.  The `try` block fails as soon as one of the
generator awaits raises, and the `except` branch returns the empty response
with the error in the metadata; otherwise the three lists are concatenated
in order, sorted by score descending (stable), deduplicated by first seen,
and truncated to `limit`. -/
def get_recommendations_body (query : Str) (limit : Nat)
    (similar popular related : Except Str (List Recommendation)) : RecommendationResponse :=
  match similar with
  | .error e => ⟨query, [], .error e⟩
  | .ok similar_docs =>
    match popular with
    | .error e => ⟨query, [], .error e⟩
    | .ok popular_docs =>
      match related with
      | .error e => ⟨query, [], .error e⟩
      | .ok related_docs =>
        let all_recommendations := similar_docs ++ popular_docs ++ related_docs
        let unique_recommendations := dedupByPath [] (all_recommendations.insertionSort recGE)
        let recommendations := unique_recommendations.take limit
        ⟨query, recommendations,
          .ok recommendations.length
            ((recommendations.map (fun r => r.recommendation_type)).dedup)⟩

/-- RecommendationEngine.get_recommendations with the engine's own three
generators, which in this model are total and therefore supplied as `ok`
outcomes. -/
def get_recommendations (log : ℚ → ℚ) (st : IndexState) (query : Str) (limit : Nat) :
    RecommendationResponse :=
  get_recommendations_body query limit
    (.ok (content_similarity_recommendations log st query limit))
    (.ok (popular_recommendations st query (limit / 2)))
    (.ok (related_api_recommendations st query (limit / 2)))

/-- RecommendationEngine.initialize on a fresh engine (named init_engine
here): it awaits `build_index` and propagates its outcome; the enumeration
argument is the collaborator-supplied file listing, or the exception the
build raises before its per-document loop (an `rglob` failure). -/
def init_engine (enumeration : Except Str (List BuildItem)) : Except Str IndexState :=
  enumeration.map (build_index emptyIndexState)

end RecommendationEngine

namespace DocumentIndexer

open PyStr

/-- Whether a build item's fallible part succeeds (the documents the loop
indexes). -/
def isOkItem (it : BuildItem) : Bool :=
  match it.fetch with
  | .ok _ => true
  | .error _ => false

/-- The TF-IDF score exactly as the specification words it: a sum over the
query terms that occur in the document's term frequencies of
`(tf(d,t)/wordcount(d)) * ln(N/df(t))`, with a zero TF component when the
word count is zero and a zero contribution when `df(t) = 0`. -/
def tf_idf_spec (log : ℚ → ℚ) (N : Nat) (df : Str → Nat) (info : IndexEntry)
    (T : List Str) : ℚ :=
  ((T.filter (fun t => info.term_frequency t ≥ 1)).map (fun t =>
    (if info.word_count = 0 then 0 else (info.term_frequency t : ℚ) / (info.word_count : ℚ)) *
    (if df t = 0 then 0 else log ((N : ℚ) / (df t : ℚ))))).sum

end DocumentIndexer

namespace PyStr

/-- A left word boundary: the text before the word is empty or ends in
whitespace. -/
def wordBoundL (p : Str) : Bool := p.getLast?.all isWs

/-- A right word boundary: the text after the word is empty or starts with
whitespace. -/
def wordBoundR (q : Str) : Bool := q.head?.all isWs

/-- The word `w` occurs whitespace-delimited in `l`. -/
def OccursWord (w l : Str) : Prop :=
  ∃ p q, l = p ++ w ++ q ∧ wordBoundL p ∧ wordBoundR q

end PyStr

namespace TextProcessor

open PyStr

/-- Whether clean_rst_content emits (in original or role-substituted form)
the line at 0-based index `i` of the remaining lines, given the current
loop state: the mirror of `cleanRstLines` that answers a position query
instead of building the output. -/
def rstEmittedAt (inDirective inCodeBlock : Bool) : List Str → Nat → Bool
  | [], _ => false
  | line :: ls, i =>
    let stripped := strip line
    if startsWith (String.toList "..") stripped &&
        !startsWith (String.toList ".. _") stripped then
      if i = 0 then false
      else
        rstEmittedAt
          (if containsSub (String.toList "::") stripped then true else inDirective)
          inCodeBlock ls (i - 1)
    else if endsWith (String.toList "::") stripped then
      if i = 0 then true else rstEmittedAt inDirective true ls (i - 1)
    else
      let inCode2 :=
        if inCodeBlock && !line.isEmpty && !(line.headD ' ').isWhitespace then false
        else inCodeBlock
      if inDirective then
        if !line.isEmpty && !(line.headD ' ').isWhitespace then
          if i = 0 then true else rstEmittedAt false inCode2 ls (i - 1)
        else
          if i = 0 then false else rstEmittedAt true inCode2 ls (i - 1)
      else
        if i = 0 then true else rstEmittedAt inDirective inCode2 ls (i - 1)

end TextProcessor

section Theorems

open PyStr PySub TextProcessor DocumentIndexer RecommendationEngine

/-- Sum over a filtered list equals the sum with the predicate folded into
the summand. -/
theorem sum_map_filter_eq (p : Str → Bool) (f : Str → ℚ) (l : List Str) :
    ((l.filter p).map f).sum = (l.map (fun x => if p x then f x else 0)).sum := by
  induction l with
  | nil => rfl
  | cons x xs ih =>
    by_cases hx : p x
    · simp [List.filter_cons, hx, ih]
    · simp [List.filter_cons, hx, ih]

/-- C3: fuzzy_match returns true whenever the normalized query is a literal
substring of the normalized text, whatever the threshold argument (including
a supplied 1.0): the substring test short-circuits before the ratio is
consulted. -/
theorem fuzzy_match_substring_always (cfg : SearchConfig) (query text : Str)
    (threshold : Option ℚ)
    (hsub : containsSub (TextProcessor.normalize_text query)
      (TextProcessor.normalize_text text) = true) :
    SearchEngine.fuzzy_match cfg query text threshold = true := by
  unfold SearchEngine.fuzzy_match
  simp [hsub]

/-- C3 witness: the substring hypothesis holds and the theorem applies at a
concrete query, text and threshold 1.0. -/
theorem fuzzy_match_substring_always_witness :
    containsSub (TextProcessor.normalize_text (String.toList "wifi"))
      (TextProcessor.normalize_text (String.toList "ESP WiFi docs")) = true ∧
    SearchEngine.fuzzy_match {} (String.toList "wifi") (String.toList "ESP WiFi docs")
      (some 1) = true :=
  ⟨by decide, fuzzy_match_substring_always {} _ _ _ (by decide)⟩

/-- C4 counterexample: with threshold 0.0 supplied, `threshold or default`
discards it, so fuzzy_match compares the ratio against the default 0.6 and
answers false although the ratio (here 0) is at least the supplied 0.0 — the
claimed iff fails at this input. -/
theorem fuzzy_match_zero_threshold_counterexample :
    containsSub (TextProcessor.normalize_text (String.toList "xyz"))
      (TextProcessor.normalize_text (String.toList "uvw")) = false ∧
    (0 : ℚ) ≤ Difflib.ratio (TextProcessor.normalize_text (String.toList "xyz"))
      (TextProcessor.normalize_text (String.toList "uvw")) ∧
    SearchEngine.fuzzy_match {} (String.toList "xyz") (String.toList "uvw")
      (some 0) = false := by
  have hq : TextProcessor.normalize_text (String.toList "xyz") = String.toList "xyz" := by decide
  have ht : TextProcessor.normalize_text (String.toList "uvw") = String.toList "uvw" := by decide
  have hM : Difflib.matching_blocks_total (String.toList "xyz") (String.toList "uvw") = 0 := by
    decide
  have hratio : Difflib.ratio (String.toList "xyz") (String.toList "uvw") = 0 := by
    unfold Difflib.ratio
    rw [hM]
    norm_num
  have hsub : containsSub (String.toList "xyz") (String.toList "uvw") = false := by decide
  refine ⟨by rw [hq, ht]; exact hsub, by rw [hq, ht, hratio], ?_⟩
  simp only [SearchEngine.fuzzy_match, hq, ht, hsub, hratio]
  norm_num

/-- C4 (amended): outside the substring case, a supplied nonzero threshold
`r` decides the match as `ratio >= r`; a supplied 0.0 is Python-falsy and
behaves exactly like supplying no threshold; with no threshold the
configured default decides. -/
theorem fuzzy_match_threshold_semantics (cfg : SearchConfig) (query text : Str)
    (r : ℚ) (hr : r ≠ 0)
    (hsub : containsSub (TextProcessor.normalize_text query)
      (TextProcessor.normalize_text text) = false) :
    (SearchEngine.fuzzy_match cfg query text (some r) = true ↔
      r ≤ Difflib.ratio (TextProcessor.normalize_text query)
        (TextProcessor.normalize_text text)) ∧
    SearchEngine.fuzzy_match cfg query text (some 0) =
      SearchEngine.fuzzy_match cfg query text none ∧
    (SearchEngine.fuzzy_match cfg query text none = true ↔
      cfg.fuzzy_threshold ≤ Difflib.ratio (TextProcessor.normalize_text query)
        (TextProcessor.normalize_text text)) := by
  unfold SearchEngine.fuzzy_match
  simp [hsub, hr]

/-- C4 witness: the hypotheses of the amended theorem hold at a concrete
nonzero threshold and non-substring pair. -/
theorem fuzzy_match_threshold_semantics_witness :
    (1 / 2 : ℚ) ≠ 0 ∧
    containsSub (TextProcessor.normalize_text (String.toList "xyz"))
      (TextProcessor.normalize_text (String.toList "uvw")) = false ∧
    (SearchEngine.fuzzy_match {} (String.toList "xyz") (String.toList "uvw")
        (some (1 / 2)) = true ↔
      (1 / 2 : ℚ) ≤ Difflib.ratio (TextProcessor.normalize_text (String.toList "xyz"))
        (TextProcessor.normalize_text (String.toList "uvw"))) :=
  ⟨by norm_num, by decide,
    (fuzzy_match_threshold_semantics {} _ _ _ (by norm_num) (by decide)).1⟩

/-- C2: calculate_tf_idf_similarity computes, for an indexed document,
exactly the specification's TF-IDF sum: terms of T present in the document
contribute `(tf/wordcount) * log(N/df)`, terms with zero document frequency
contribute 0, a zero word count zeroes the TF factor, and absent terms
contribute 0. -/
theorem tf_idf_similarity_eq_spec (log : ℚ → ℚ) (st : IndexState)
    (query_terms : List Str) (document_path : Str) (info : IndexEntry)
    (hmem : dictGet document_path st.documentIndex = some info) :
    calculate_tf_idf_similarity log st query_terms document_path =
      tf_idf_spec log st.totalDocuments st.documentFrequency info query_terms := by
  simp only [calculate_tf_idf_similarity, tf_idf_spec, hmem]
  rw [sum_map_filter_eq]
  refine congrArg List.sum (List.map_congr_left fun t _ => ?_)
  by_cases h1 : info.term_frequency t ≥ 1
  · rw [if_pos h1, if_pos (decide_eq_true h1)]
    congr 1
    · by_cases h2 : info.word_count = 0
      · rw [if_neg (by omega), if_pos h2]
      · rw [if_pos (Nat.pos_of_ne_zero h2), if_neg h2]
    · by_cases h3 : st.documentFrequency t = 0
      · rw [if_neg (by omega), if_pos h3]
      · rw [if_pos (Nat.pos_of_ne_zero h3), if_neg h3]
  · rw [if_neg h1, if_neg (by simpa using h1)]

/-- C2 witness: a concrete one-document state in which the document is
present, so the theorem applies. -/
theorem tf_idf_similarity_eq_spec_witness :
    dictGet (String.toList "a.rst")
      [((String.toList "a.rst"),
        (⟨String.toList "a", [], 2, [], [], fun t => if t = String.toList "wifi" then 2 else 0,
          9⟩ : IndexEntry))] = some
      ⟨String.toList "a", [], 2, [], [], fun t => if t = String.toList "wifi" then 2 else 0, 9⟩ ∧
    calculate_tf_idf_similarity (fun x => x)
      ⟨[((String.toList "a.rst"),
        ⟨String.toList "a", [], 2, [], [], fun t => if t = String.toList "wifi" then 2 else 0,
          9⟩)], fun _ _ => 0, fun _ => 1, 1⟩
      [String.toList "wifi"] (String.toList "a.rst") =
      tf_idf_spec (fun x => x) 1 (fun _ => 1)
        ⟨String.toList "a", [], 2, [], [], fun t => if t = String.toList "wifi" then 2 else 0, 9⟩
        [String.toList "wifi"] := by
  constructor
  · rfl
  · exact tf_idf_similarity_eq_spec (fun x => x) _ _ _ _ rfl

/-- The dedup loop only ever drops elements: its result is a sublist of its
input. -/
theorem dedupByPath_sublist : ∀ (l : List Recommendation) (seen : List Str),
    (dedupByPath seen l).Sublist l := by
  intro l
  induction l with
  | nil => intro seen; simp [dedupByPath]
  | cons r rest ih =>
    intro seen
    unfold dedupByPath
    by_cases hmem : r.file_path ∈ seen
    · simp only [if_pos hmem]
      exact (ih seen).cons r
    · simp only [if_neg hmem]
      exact (ih (r.file_path :: seen)).cons₂ r

/-- The dedup loop emits no path twice and nothing already seen. -/
theorem dedupByPath_nodup : ∀ (l : List Recommendation) (seen : List Str),
    ((dedupByPath seen l).map (fun r => r.file_path)).Nodup ∧
    ∀ p ∈ (dedupByPath seen l).map (fun r => r.file_path), p ∉ seen := by
  intro l
  induction l with
  | nil => intro seen; simp [dedupByPath]
  | cons r rest ih =>
    intro seen
    unfold dedupByPath
    by_cases hmem : r.file_path ∈ seen
    · simpa only [if_pos hmem] using ih seen
    · simp only [if_neg hmem, List.map_cons, List.nodup_cons, List.mem_cons]
      obtain ⟨ihn, ihs⟩ := ih (r.file_path :: seen)
      refine ⟨⟨fun hc => ?_, ihn⟩, ?_⟩
      · exact (ihs _ hc) (List.mem_cons_self _ _)
      · rintro p (rfl | hp)
        · exact hmem
        · intro hpseen
          exact (ihs p hp) (List.mem_cons_of_mem _ hpseen)

/-- The recommendation list of a successful get_recommendations body. -/
theorem get_recommendations_body_ok (query : Str) (limit : Nat)
    (s p r : List Recommendation) :
    (get_recommendations_body query limit (.ok s) (.ok p) (.ok r)).recommendations =
      (dedupByPath [] ((s ++ p ++ r).insertionSort recGE)).take limit := rfl

/-- C6: every recommendation list returned by get_recommendations is sorted
by relevance_score non-increasing, contains no two recommendations with the
same file_path (first occurrence in score-descending order over the
concatenated generator lists wins), and has at most `limit` entries. -/
theorem get_recommendations_sorted_nodup_bounded (log : ℚ → ℚ) (st : IndexState)
    (query : Str) (limit : Nat) :
    List.Pairwise recGE (get_recommendations log st query limit).recommendations ∧
    ((get_recommendations log st query limit).recommendations.map
      (fun r => r.file_path)).Nodup ∧
    (get_recommendations log st query limit).recommendations.length ≤ limit := by
  unfold get_recommendations
  rw [get_recommendations_body_ok]
  set all := (content_similarity_recommendations log st query limit ++
    popular_recommendations st query (limit / 2) ++
    related_api_recommendations st query (limit / 2)) with hall
  have hsorted : List.Pairwise recGE (all.insertionSort recGE) :=
    List.sorted_insertionSort recGE all
  have hsub1 : (dedupByPath [] (all.insertionSort recGE)).Sublist (all.insertionSort recGE) :=
    dedupByPath_sublist _ _
  have hsub2 : ((dedupByPath [] (all.insertionSort recGE)).take limit).Sublist
      (dedupByPath [] (all.insertionSort recGE)) := List.take_sublist _ _
  refine ⟨(hsorted.sublist hsub1).sublist hsub2, ?_, ?_⟩
  · exact ((dedupByPath_nodup (all.insertionSort recGE) []).1).sublist (hsub2.map _)
  · calc ((dedupByPath [] (all.insertionSort recGE)).take limit).length ≤ limit :=
      (List.length_take ..).le.trans (min_le_left ..)

/-- C7 (amended): any exception raised by one of the three awaited candidate
generators inside the `try` of get_recommendations is caught and turned into
the empty recommendation list with the error text in the response metadata,
whichever generator fails first; the call itself is total.  (An index-build
failure, by contrast, never reaches get_recommendations: initialize
propagates it to the explorer, which swallows it — see the counterexample.) -/
theorem get_recommendations_generator_error (query : Str) (limit : Nat) (e : Str)
    (s p : List Recommendation) (sim pop rel : Except Str (List Recommendation)) :
    get_recommendations_body query limit (.error e) pop rel =
      ⟨query, [], .error e⟩ ∧
    get_recommendations_body query limit (.ok s) (.error e) rel =
      ⟨query, [], .error e⟩ ∧
    get_recommendations_body query limit (.ok s) (.ok p) (.error e) =
      ⟨query, [], .error e⟩ :=
  ⟨rfl, rfl, rfl⟩

/-- C7 counterexample: when the index build raises, the exception propagates
out of initialize (first conjunct) instead of being converted into a
response; the engine is left with its fresh empty index, and the next
get_recommendations call returns the ordinary success metadata — with no
error note — rather than the claimed error description (second and third
conjuncts). -/
theorem build_failure_not_reported_counterexample :
    init_engine (.error (String.toList "boom")) = .error (String.toList "boom") ∧
    (get_recommendations (fun x => x) emptyIndexState (String.toList "wifi")
      5).recommendations = [] ∧
    (get_recommendations (fun x => x) emptyIndexState (String.toList "wifi")
      5).metadata = .ok 0 [] := by
  refine ⟨rfl, by decide, by decide⟩

/-- A failed fetch leaves the build loop state unchanged (the `except` arm
logs and continues). -/
theorem buildStep_error (st : IndexState) (it : BuildItem) (e : Str)
    (h : it.fetch = .error e) : buildStep st it = st := by
  unfold buildStep
  rw [h]

/-- Association-list lookup misses exactly the keys that are absent. -/
theorem dictGet_eq_none_iff (k : Str) :
    ∀ d : List (Str × IndexEntry), dictGet k d = none ↔ k ∉ d.map (fun kv => kv.1) := by
  intro d
  induction d with
  | nil => exact ⟨fun _ => by simp, fun _ => rfl⟩
  | cons kv rest ih =>
    obtain ⟨k2, v2⟩ := kv
    have hg : dictGet k ((k2, v2) :: rest) =
        if k2 = k then some v2 else dictGet k rest := rfl
    by_cases hk : k2 = k
    · rw [hg, if_pos hk]
      subst hk
      exact ⟨fun h => Option.noConfusion h,
        fun h => absurd (List.mem_map_of_mem _ (List.mem_cons_self ..)) h⟩
    · rw [hg, if_neg hk, ih]
      simp only [List.map_cons, List.mem_cons]
      constructor
      · rintro hnot (h2 | hmem)
        · exact hk h2.symm
        · exact hnot hmem
      · intro hnot hmem
        exact hnot (Or.inr hmem)

/-- Keys after a dict assignment: the assigned key and the previous keys. -/
theorem mem_keys_dictInsert (p k : Str) (v : IndexEntry) :
    ∀ d : List (Str × IndexEntry),
    p ∈ (dictInsert k v d).map (fun kv => kv.1) ↔ p = k ∨ p ∈ d.map (fun kv => kv.1) := by
  intro d
  induction d with
  | nil => simp [dictInsert]
  | cons kv rest ih =>
    obtain ⟨k2, v2⟩ := kv
    have hg : dictInsert k v ((k2, v2) :: rest) =
        if k2 = k then (k, v) :: rest else (k2, v2) :: dictInsert k v rest := rfl
    by_cases hk : k2 = k
    · rw [hg, if_pos hk]
      subst hk
      simp only [List.map_cons, List.mem_cons]
      tauto
    · rw [hg, if_neg hk]
      simp only [List.map_cons, List.mem_cons, ih]
      tauto

/-- Every key of a built index is either a key of the initial state or the
relative path of a successfully fetched item. -/
theorem mem_keys_build : ∀ (items : List BuildItem) (st : IndexState) (p : Str),
    p ∈ (items.foldl buildStep st).documentIndex.map (fun kv => kv.1) →
    p ∈ st.documentIndex.map (fun kv => kv.1) ∨
      ∃ it ∈ items, isOkItem it = true ∧ it.relPath = p := by
  intro items
  induction items with
  | nil => intro st p h; exact Or.inl h
  | cons it rest ih =>
    intro st p h
    rw [List.foldl_cons] at h
    rcases ih (buildStep st it) p h with hin | ⟨it2, hmem, hok, hpath⟩
    · match hfetch : it.fetch with
      | .error e =>
        rw [buildStep_error st it e hfetch] at hin
        exact Or.inl hin
      | .ok content =>
        unfold buildStep at hin
        rw [hfetch] at hin
        rw [mem_keys_dictInsert] at hin
        rcases hin with rfl | hin
        · exact Or.inr ⟨it, List.mem_cons_self ..,
            by simp [isOkItem, hfetch], rfl⟩
        · exact Or.inl hin
    · exact Or.inr ⟨it2, List.mem_cons_of_mem _ hmem, hok, hpath⟩

/-- The build counter counts exactly the successfully fetched items. -/
theorem totalDocuments_build : ∀ (items : List BuildItem) (st : IndexState),
    (items.foldl buildStep st).totalDocuments =
      st.totalDocuments + items.countP isOkItem := by
  intro items
  induction items with
  | nil => intro st; simp
  | cons it rest ih =>
    intro st
    rw [List.foldl_cons, ih, List.countP_cons]
    match hfetch : it.fetch with
    | .error e =>
      have hok : isOkItem it = false := by simp [isOkItem, hfetch]
      rw [buildStep_error st it e hfetch, hok]
      simp
    | .ok content =>
      have hok : isOkItem it = true := by simp [isOkItem, hfetch]
      have htot : (buildStep st it).totalDocuments = st.totalDocuments + 1 := by
        unfold buildStep
        rw [hfetch]
      rw [htot, hok]
      simp
      omega

/-- C8: a document whose fetch raises mid-build is invisible: the build
completes and equals the build over the corpus without it, the failed path
is not among get_all_documents afterward, and total_documents counts only
the successful items of the build. -/
theorem build_index_isolates_failure (pre post : List BuildItem) (bad : BuildItem)
    (e : Str) (hbad : bad.fetch = .error e)
    (hfresh : ∀ it ∈ pre ++ post, it.relPath ≠ bad.relPath) :
    build_index emptyIndexState (pre ++ bad :: post) =
      build_index emptyIndexState (pre ++ post) ∧
    bad.relPath ∉ get_all_documents (build_index emptyIndexState (pre ++ bad :: post)) ∧
    (build_index emptyIndexState (pre ++ bad :: post)).totalDocuments =
      (pre ++ post).countP isOkItem := by
  have heq : build_index emptyIndexState (pre ++ bad :: post) =
      build_index emptyIndexState (pre ++ post) := by
    unfold build_index
    rw [List.foldl_append, List.foldl_append, List.foldl_cons,
      buildStep_error _ _ _ hbad]
  refine ⟨heq, ?_, ?_⟩
  · rw [heq]
    intro hmem
    unfold get_all_documents at hmem
    rcases mem_keys_build (pre ++ post) _ _ hmem with hin | ⟨it2, hmem2, -, hpath⟩
    · simp [emptyIndexState] at hin
    · exact hfresh it2 hmem2 hpath
  · rw [heq]
    unfold build_index
    rw [totalDocuments_build]
    simp

/-- C8 witness: a two-good-one-bad build in which the hypotheses hold at
concrete documents, so the theorem applies. -/
theorem build_index_isolates_failure_witness :
    (⟨String.toList "bad.rst", String.toList "bad", String.toList ".rst",
      .error (String.toList "decode error")⟩ : BuildItem).fetch =
        .error (String.toList "decode error") ∧
    (∀ it ∈ [(⟨String.toList "a.rst", String.toList "a", String.toList ".rst",
        .ok (String.toList "alpha words")⟩ : BuildItem)] ++
        [(⟨String.toList "b.md", String.toList "b", String.toList ".md",
          .ok (String.toList "beta words")⟩ : BuildItem)],
      it.relPath ≠ String.toList "bad.rst") ∧
    (build_index emptyIndexState
      ([(⟨String.toList "a.rst", String.toList "a", String.toList ".rst",
        .ok (String.toList "alpha words")⟩ : BuildItem)] ++
        (⟨String.toList "bad.rst", String.toList "bad", String.toList ".rst",
          .error (String.toList "decode error")⟩ : BuildItem) ::
        [(⟨String.toList "b.md", String.toList "b", String.toList ".md",
          .ok (String.toList "beta words")⟩ : BuildItem)])).totalDocuments = 2 := by
  refine ⟨rfl, by decide, ?_⟩
  rw [(build_index_isolates_failure _ _ _ _ rfl (by decide)).2.2]
  decide

/-- Assigning a fresh key to a Python dict appends it. -/
theorem dictInsert_fresh (k : Str) (v : IndexEntry) :
    ∀ d : List (Str × IndexEntry), k ∉ d.map (fun kv => kv.1) →
    dictInsert k v d = d ++ [(k, v)] := by
  intro d
  induction d with
  | nil => intro; rfl
  | cons kv rest ih =>
    obtain ⟨k2, v2⟩ := kv
    intro hfresh
    simp only [List.map_cons, List.mem_cons] at hfresh
    push_neg at hfresh
    have hg : dictInsert k v ((k2, v2) :: rest) =
        if k2 = k then (k, v) :: rest else (k2, v2) :: dictInsert k v rest := rfl
    rw [hg, if_neg (fun h2 => hfresh.1 h2.symm), ih hfresh.2]
    rfl

/-- The document-frequency invariant is preserved along the build loop: if
`document_frequency` counts, per term, the indexed documents whose term
counter is at least 1, and all upcoming paths are fresh and pairwise
distinct, the same holds after folding the remaining items. -/
theorem build_df_invariant : ∀ (items : List BuildItem) (st : IndexState),
    (∀ t, st.documentFrequency t =
      st.documentIndex.countP (fun kv => decide (1 ≤ kv.2.term_frequency t))) →
    (∀ it ∈ items, isOkItem it = true →
      it.relPath ∉ st.documentIndex.map (fun kv => kv.1)) →
    ((items.map (fun it => it.relPath)).Nodup) →
    ∀ t, (items.foldl buildStep st).documentFrequency t =
      (items.foldl buildStep st).documentIndex.countP
        (fun kv => decide (1 ≤ kv.2.term_frequency t)) := by
  intro items
  induction items with
  | nil => intro st hinv _ _ t; exact hinv t
  | cons it rest ih =>
    intro st hinv hfresh hnodup t
    rw [List.map_cons, List.nodup_cons] at hnodup
    rw [List.foldl_cons]
    match hfetch : it.fetch with
    | .error e =>
      rw [buildStep_error st it e hfetch]
      exact ih st hinv (fun it2 hm => hfresh it2 (List.mem_cons_of_mem _ hm)) hnodup.2 t
    | .ok content =>
      have hstep : buildStep st it =
          { documentIndex := dictInsert it.relPath (buildEntry it content) st.documentIndex
            termFrequency := fun p t =>
              if p = it.relPath then (buildWords it content).count t else st.termFrequency p t
            documentFrequency := fun t =>
              if (buildWords it content).count t > 0 then st.documentFrequency t + 1
              else st.documentFrequency t
            totalDocuments := st.totalDocuments + 1 } := by
        unfold buildStep
        rw [hfetch]
      apply ih (buildStep st it) _ _ hnodup.2
      · intro t2
        rw [hstep]
        dsimp only
        rw [dictInsert_fresh _ _ _ (hfresh it (List.mem_cons_self ..)
          (by simp [isOkItem, hfetch]))]
        rw [List.countP_append, ← hinv t2]
        by_cases hcount : 1 ≤ (buildWords it content).count t2
        · rw [if_pos (by omega)]
          simp only [List.countP_cons, List.countP_nil, buildEntry]
          rw [if_pos (by simpa using hcount)]
        · rw [if_neg (by omega)]
          simp only [List.countP_cons, List.countP_nil, buildEntry]
          rw [if_neg (by simpa using hcount)]
          omega
      · intro it2 hm hok
        rw [hstep]
        dsimp only
        rw [mem_keys_dictInsert]
        rintro (hpath | hmem)
        · exact hnodup.1 (hpath ▸ List.mem_map_of_mem _ hm)
        · exact hfresh it2 (List.mem_cons_of_mem _ hm) hok hmem

/-- C1 (amended): after one build_index call on a freshly constructed
indexer over items with pairwise-distinct relative paths,
`document_frequency[t]` equals the number of indexed documents whose term
counter contains `t` with count at least 1.  (The unamended claim also
covers re-indexing; the counterexample shows a second build over the same
corpus breaks it, because build_index never clears the accumulated
tables.) -/
theorem document_frequency_counts_documents (items : List BuildItem)
    (hnodup : (items.map (fun it => it.relPath)).Nodup) :
    ∀ t, (build_index emptyIndexState items).documentFrequency t =
      (build_index emptyIndexState items).documentIndex.countP
        (fun kv => decide (1 ≤ kv.2.term_frequency t)) := by
  unfold build_index
  exact build_df_invariant items _ (fun t => rfl) (fun it2 _ _ => by simp [emptyIndexState])
    hnodup

/-- C1 witness: two documents with distinct paths; the hypothesis holds and
the theorem applies. -/
theorem document_frequency_counts_documents_witness :
    (([(⟨String.toList "a.rst", String.toList "a", String.toList ".rst",
        .ok (String.toList "hello world")⟩ : BuildItem),
       ⟨String.toList "b.txt", String.toList "b", String.toList ".txt",
        .ok (String.toList "hello again")⟩].map (fun it => it.relPath)).Nodup) ∧
    (∀ t, (build_index emptyIndexState
        [(⟨String.toList "a.rst", String.toList "a", String.toList ".rst",
          .ok (String.toList "hello world")⟩ : BuildItem),
         ⟨String.toList "b.txt", String.toList "b", String.toList ".txt",
          .ok (String.toList "hello again")⟩]).documentFrequency t =
      (build_index emptyIndexState
        [(⟨String.toList "a.rst", String.toList "a", String.toList ".rst",
          .ok (String.toList "hello world")⟩ : BuildItem),
         ⟨String.toList "b.txt", String.toList "b", String.toList ".txt",
          .ok (String.toList "hello again")⟩]).documentIndex.countP
        (fun kv => decide (1 ≤ kv.2.term_frequency t))) :=
  ⟨by decide, document_frequency_counts_documents _ (by decide)⟩

/-- C1 counterexample: the claim as stated ranges over any completed
sequence of build_index calls, including re-indexing the same corpus; but a
second build of the same one-document corpus doubles `document_frequency`
("hello" reaches 2) while the index still holds a single document containing
the term, so the claimed equality fails. -/
theorem document_frequency_reindex_counterexample :
    (build_index (build_index emptyIndexState
      [(⟨String.toList "a.rst", String.toList "a", String.toList ".rst",
        .ok (String.toList "hello world")⟩ : BuildItem)])
      [(⟨String.toList "a.rst", String.toList "a", String.toList ".rst",
        .ok (String.toList "hello world")⟩ : BuildItem)]).documentFrequency
      (String.toList "hello") = 2 ∧
    (build_index (build_index emptyIndexState
      [(⟨String.toList "a.rst", String.toList "a", String.toList ".rst",
        .ok (String.toList "hello world")⟩ : BuildItem)])
      [(⟨String.toList "a.rst", String.toList "a", String.toList ".rst",
        .ok (String.toList "hello world")⟩ : BuildItem)]).documentIndex.countP
      (fun kv => decide (1 ≤ kv.2.term_frequency (String.toList "hello"))) = 1 := by
  refine ⟨by decide, by decide⟩

/-- C5: calculate_relevance_score always lands in [0, 100]: the final clamp
caps it at 100, and every additive contribution as well as the
length-normalization multiplier is non-negative, so the clamped value is
also at least 0. -/
theorem relevance_score_bounded (query content : Str) (matchList : List MatchRec)
    (metadata : DocumentMetadata) (now : ℚ) :
    0 ≤ SearchEngine.calculate_relevance_score query content matchList metadata now ∧
    SearchEngine.calculate_relevance_score query content matchList metadata now ≤ 100 := by
  unfold SearchEngine.calculate_relevance_score
  dsimp only
  constructor
  · refine le_min ?_ (by norm_num)
    have h1 : (0 : ℚ) ≤ (matchList.length : ℚ) * 10 :=
      mul_nonneg (Nat.cast_nonneg _) (by norm_num)
    have h2 : (0 : ℚ) ≤ (countSub (lower query) (lower content) : ℚ) * 15 :=
      mul_nonneg (Nat.cast_nonneg _) (by norm_num)
    have h3 : (0 : ℚ) ≤ ((TextProcessor.extract_headings content).map (fun h =>
        if containsSub (lower query) (lower h.title) then max (30 - (h.level : ℚ) * 5) 10
        else 0)).sum := by
      apply List.sum_nonneg
      intro x hx
      obtain ⟨hd, -, rfl⟩ := List.mem_map.mp hx
      split
      · exact le_trans (by norm_num) (le_max_right _ _)
      · exact le_refl 0
    have h4 : (0 : ℚ) ≤
        (if containsSub (lower query) (lower (SearchEngine.basename metadata.file_path))
         then (25 : ℚ) else 0) := by
      split <;> norm_num
    have h5 : (0 : ℚ) ≤ (if metadata.doc_type = String.toList "rst" then (5 : ℚ) else 0) := by
      split <;> norm_num
    have h6 : (0 : ℚ) ≤
        (if (now - metadata.last_modified) / 86400 < 30 then (10 : ℚ)
         else if (now - metadata.last_modified) / 86400 < 90 then 5 else 0) := by
      split
      · norm_num
      · split <;> norm_num
    have hsum : (0 : ℚ) ≤ (matchList.length : ℚ) * 10 +
        (countSub (lower query) (lower content) : ℚ) * 15 +
        ((TextProcessor.extract_headings content).map (fun h =>
          if containsSub (lower query) (lower h.title) then max (30 - (h.level : ℚ) * 5) 10
          else 0)).sum +
        (if containsSub (lower query) (lower (SearchEngine.basename metadata.file_path))
         then (25 : ℚ) else 0) +
        (if metadata.doc_type = String.toList "rst" then (5 : ℚ) else 0) +
        (if (now - metadata.last_modified) / 86400 < 30 then (10 : ℚ)
         else if (now - metadata.last_modified) / 86400 < 90 then 5 else 0) :=
      add_nonneg (add_nonneg (add_nonneg (add_nonneg (add_nonneg h1 h2) h3) h4) h5) h6
    split
    · refine mul_nonneg hsum ?_
      have hmin : (0 : ℚ) ≤ min (1000 / (metadata.word_count : ℚ)) 1 :=
        le_min (div_nonneg (by norm_num) (Nat.cast_nonneg _)) (by norm_num)
      nlinarith
    · exact hsum
  · exact min_le_right _ _

/-- The ASCII lowercasing map is idempotent. -/
theorem lowerChar_idem (c : Char) : lowerChar (lowerChar c) = lowerChar c := by
  unfold lowerChar
  by_cases h : c.isUpper
  · rw [if_pos h]
    simp only [Char.isUpper, Bool.and_eq_true, decide_eq_true_eq] at h
    obtain ⟨h1, h2⟩ := h
    have h1n : 65 ≤ c.toNat := h1
    have h2n : c.toNat ≤ 90 := h2
    have hvalid : (c.toNat + 32).isValidChar := by left; omega
    have htoNat : (Char.ofNat (c.toNat + 32)).toNat = c.toNat + 32 := by
      unfold Char.ofNat
      rw [dif_pos hvalid]
      rfl
    have hni : (Char.ofNat (c.toNat + 32)).isUpper = false := by
      simp only [Char.isUpper, Bool.and_eq_false_iff, decide_eq_false_iff_not]
      right
      intro hle
      have h90 : (Char.ofNat (c.toNat + 32)).toNat ≤ 90 := hle
      rw [htoNat] at h90
      omega
    rw [if_neg (by rw [hni]; exact Bool.false_ne_true)]
  · rw [if_neg h, if_neg h]

/-- A pointwise-fixed map is the identity on a list. -/
theorem map_id_of_mem (f : Char → Char) :
    ∀ l : Str, (∀ c ∈ l, f c = c) → l.map f = l := by
  intro l
  induction l with
  | nil => intro; rfl
  | cons c t ih =>
    intro h
    rw [List.map_cons, h c (List.mem_cons_self ..), ih (fun d hd => h d (List.mem_cons_of_mem _ hd))]

/-- Every character of a `splitOnP` chunk avoids the separator predicate and
comes from the input. -/
theorem mem_splitOnP_chunk (p : Char → Bool) :
    ∀ (l w : Str), w ∈ l.splitOnP p → ∀ c ∈ w, p c = false ∧ c ∈ l := by
  intro l
  induction l with
  | nil =>
    intro w hw c hc
    rw [List.splitOnP_nil] at hw
    rcases List.mem_singleton.mp hw with rfl
    simp at hc
  | cons a t ih =>
    intro w hw c hc
    rw [List.splitOnP_cons] at hw
    by_cases hpa : p a = true
    · rw [if_pos hpa] at hw
      rcases List.mem_cons.mp hw with rfl | hw2
      · simp at hc
      · obtain ⟨hh1, hh2⟩ := ih w hw2 c hc
        exact ⟨hh1, List.mem_cons_of_mem _ hh2⟩
    · rw [if_neg hpa] at hw
      obtain ⟨h0, rest, hsplit⟩ : ∃ h0 rest, t.splitOnP p = h0 :: rest := by
        rcases hsp : t.splitOnP p with - | ⟨h0, rest⟩
        · exact absurd hsp (List.splitOnP_ne_nil p t)
        · exact ⟨h0, rest, rfl⟩
      rw [hsplit, List.modifyHead_cons] at hw
      rcases List.mem_cons.mp hw with rfl | hw2
      · rcases List.mem_cons.mp hc with rfl | hc2
        · exact ⟨Bool.not_eq_true _ ▸ hpa, List.mem_cons_self ..⟩
        · obtain ⟨hh1, hh2⟩ := ih h0 (hsplit ▸ List.mem_cons_self ..) c hc2
          exact ⟨hh1, List.mem_cons_of_mem _ hh2⟩
      · obtain ⟨hh1, hh2⟩ := ih w (hsplit ▸ List.mem_cons_of_mem _ hw2) c hc
        exact ⟨hh1, List.mem_cons_of_mem _ hh2⟩

/-- Every word produced by `splitWs` is nonempty and consists of
non-whitespace characters of the input. -/
theorem splitWs_good (l w : Str) (hw : w ∈ splitWs l) :
    w ≠ [] ∧ ∀ c ∈ w, isWs c = false ∧ c ∈ l := by
  unfold splitWs at hw
  obtain ⟨hmem, hne⟩ := List.mem_filter.mp hw
  refine ⟨by simpa using hne, fun c hc => mem_splitOnP_chunk isWs l w hmem c hc⟩

/-- Characters of the collapsed string come from the input or are the
single space the collapse emits. -/
theorem mem_collapseWsAux :
    ∀ (l : Str) (flag : Bool) (c : Char), c ∈ collapseWsAux flag l → c ∈ l ∨ c = ' ' := by
  intro l
  induction l with
  | nil => intro flag c hc; simp [collapseWsAux] at hc
  | cons a t ih =>
    intro flag c hc
    unfold collapseWsAux at hc
    by_cases ha : isWs a = true
    · rw [if_pos ha] at hc
      by_cases hflag : flag = true
      · rw [if_pos hflag] at hc
        rcases ih true c hc with h | h
        · exact Or.inl (List.mem_cons_of_mem _ h)
        · exact Or.inr h
      · rw [if_neg hflag] at hc
        rcases List.mem_cons.mp hc with rfl | hc2
        · exact Or.inr rfl
        · rcases ih true c hc2 with h | h
          · exact Or.inl (List.mem_cons_of_mem _ h)
          · exact Or.inr h
    · rw [if_neg ha] at hc
      rcases List.mem_cons.mp hc with rfl | hc2
      · exact Or.inl (List.mem_cons_self ..)
      · rcases ih false c hc2 with h | h
        · exact Or.inl (List.mem_cons_of_mem _ h)
        · exact Or.inr h

/-- Characters of a joined word list come from the words or are the single
space separators. -/
theorem mem_joinWords :
    ∀ (ws : List Str) (c : Char), c ∈ joinWords ws → (∃ w ∈ ws, c ∈ w) ∨ c = ' ' := by
  intro ws
  induction ws with
  | nil => intro c hc; simp [joinWords] at hc
  | cons w rest ih =>
    intro c hc
    rcases rest with - | ⟨w2, rest2⟩
    · exact Or.inl ⟨w, List.mem_cons_self .., hc⟩
    · have hj : joinWords (w :: w2 :: rest2) = w ++ ' ' :: joinWords (w2 :: rest2) := rfl
      rw [hj] at hc
      rcases List.mem_append.mp hc with h | h
      · exact Or.inl ⟨w, List.mem_cons_self .., h⟩
      · rcases List.mem_cons.mp h with rfl | h2
        · exact Or.inr rfl
        · rcases ih c h2 with ⟨w3, hw3, hc3⟩ | h3
          · exact Or.inl ⟨w3, List.mem_cons_of_mem _ hw3, hc3⟩
          · exact Or.inr h3

/-- Unfolding equation of the collapse scan on a cons cell. -/
theorem collapseWsAux_cons (flag : Bool) (c : Char) (t : Str) :
    collapseWsAux flag (c :: t) =
      if isWs c = true then
        (if flag = true then collapseWsAux true t else ' ' :: collapseWsAux true t)
      else c :: collapseWsAux false t := rfl

/-- Collapsing commutes with copying a whitespace-free block. -/
theorem collapseWsAux_word :
    ∀ (w : Str), (∀ c ∈ w, isWs c = false) → ∀ (flag : Bool) (l : Str),
    collapseWsAux flag (w ++ l) = w ++ collapseWsAux (if w.isEmpty then flag else false) l := by
  intro w
  induction w with
  | nil => intro _ flag l; rfl
  | cons c t ih =>
    intro hws flag l
    have hc : isWs c = false := hws c (List.mem_cons_self ..)
    have hstep : collapseWsAux flag ((c :: t) ++ l) =
        c :: collapseWsAux false (t ++ l) := by
      rw [List.cons_append, collapseWsAux_cons,
        if_neg (by rw [hc]; exact Bool.false_ne_true)]
    rw [hstep, ih (fun d hd => hws d (List.mem_cons_of_mem _ hd)) false l]
    rcases t with - | ⟨d, t2⟩ <;> rfl

/-- The collapse flags agree on strings that do not start with
whitespace. -/
theorem collapseWsAux_flag_eq (l : Str)
    (h : l = [] ∨ isWs (l.headD 'x') = false) :
    collapseWsAux true l = collapseWsAux false l := by
  rcases l with - | ⟨c, t⟩
  · rfl
  · rcases h with h | h
    · exact absurd h (by simp)
    · simp only [List.headD_cons] at h
      unfold collapseWsAux
      rw [if_neg (by rw [h]; exact Bool.false_ne_true),
        if_neg (by rw [h]; exact Bool.false_ne_true)]

/-- A canonical join of nonempty whitespace-free words is a fixed point of
whitespace collapsing. -/
theorem collapseWs_joinWords :
    ∀ (ws : List Str), (∀ w ∈ ws, w ≠ [] ∧ ∀ c ∈ w, isWs c = false) →
    collapseWs (joinWords ws) = joinWords ws := by
  intro ws
  induction ws with
  | nil => intro; rfl
  | cons w rest ih =>
    intro hg
    obtain ⟨hne, hws⟩ := hg w (List.mem_cons_self ..)
    have hnef : w.isEmpty = false := by simpa using hne
    rcases rest with - | ⟨w2, rest2⟩
    · have hj : joinWords [w] = w ++ [] := by simp [joinWords]
      unfold collapseWs
      rw [hj, collapseWsAux_word w hws false [], hnef]
      rfl
    · have hj : joinWords (w :: w2 :: rest2) = w ++ ' ' :: joinWords (w2 :: rest2) := rfl
      unfold collapseWs
      rw [hj, collapseWsAux_word w hws false _, hnef]
      have hsp : collapseWsAux false (' ' :: joinWords (w2 :: rest2)) =
          ' ' :: collapseWsAux true (joinWords (w2 :: rest2)) := by
        rw [collapseWsAux_cons, if_pos (by decide), if_neg Bool.false_ne_true]
      rw [if_neg Bool.false_ne_true, hsp]
      obtain ⟨hne2, -⟩ := hg w2 (List.mem_cons_of_mem _ (List.mem_cons_self ..))
      have hhead : isWs ((joinWords (w2 :: rest2)).headD 'x') = false := by
        rcases w2 with - | ⟨c2, t2⟩
        · exact absurd rfl hne2
        · obtain ⟨-, hws2⟩ := hg (c2 :: t2) (List.mem_cons_of_mem _ (List.mem_cons_self ..))
          have : ∃ tl, joinWords ((c2 :: t2) :: rest2) = c2 :: tl := by
            rcases rest2 with - | ⟨w3, rest3⟩
            · exact ⟨t2, rfl⟩
            · exact ⟨t2 ++ ' ' :: joinWords (w3 :: rest3), rfl⟩
          obtain ⟨tl, htl⟩ := this
          rw [htl]
          exact hws2 c2 (List.mem_cons_self ..)
      rw [collapseWsAux_flag_eq _ (Or.inr hhead)]
      have ihr := ih (fun w3 hw3 => hg w3 (List.mem_cons_of_mem _ hw3))
      unfold collapseWs at ihr
      rw [ihr]

/-- Splitting a canonical join of nonempty whitespace-free words recovers
the words. -/
theorem splitWs_joinWords :
    ∀ (ws : List Str), (∀ w ∈ ws, w ≠ [] ∧ ∀ c ∈ w, isWs c = false) →
    splitWs (joinWords ws) = ws := by
  intro ws
  induction ws with
  | nil => intro; rfl
  | cons w rest ih =>
    intro hg
    obtain ⟨hne, hws⟩ := hg w (List.mem_cons_self ..)
    have hnp : ∀ x ∈ w, ¬ isWs x = true := fun x hx => by
      rw [hws x hx]; exact Bool.false_ne_true
    rcases rest with - | ⟨w2, rest2⟩
    · have hj : joinWords [w] = w := rfl
      unfold splitWs
      rw [hj, List.splitOnP_eq_single _ _ hnp]
      simp [hne]
    · have hj : joinWords (w :: w2 :: rest2) = w ++ ' ' :: joinWords (w2 :: rest2) := rfl
      unfold splitWs
      rw [hj, List.splitOnP_first _ _ hnp ' ' (by decide) _]
      have ihr := ih (fun w3 hw3 => hg w3 (List.mem_cons_of_mem _ hw3))
      unfold splitWs at ihr
      rw [List.filter_cons_of_pos (by simpa using hne), ihr]

/-- Characters surviving the character replacement are fixed by a second
replacement. -/
theorem replChar_mem_stable (X : Str) (c : Char) (hc : c ∈ X.map replChar) :
    replChar c = c := by
  obtain ⟨c0, -, rfl⟩ := List.mem_map.mp hc
  unfold replChar
  by_cases hk : keepChar c0 = true
  · rw [if_pos hk, if_pos hk]
  · rw [if_neg hk]
    rfl

/-- C10: normalize_text is idempotent — its output (lowercase kept
characters joined by single spaces) is a fixed point of the
normalization. -/
theorem normalize_text_idempotent (s : Str) :
    TextProcessor.normalize_text (TextProcessor.normalize_text s) =
      TextProcessor.normalize_text s := by
  unfold TextProcessor.normalize_text
  set M := (collapseWs (lower s)).map TextProcessor.replChar with hM
  set W := splitWs M with hW
  have hgood : ∀ w ∈ W, w ≠ [] ∧ ∀ c ∈ w, isWs c = false := by
    intro w hw
    obtain ⟨h1, h2⟩ := splitWs_good M w hw
    exact ⟨h1, fun c hc => (h2 c hc).1⟩
  have hmemM : ∀ w ∈ W, ∀ c ∈ w, c ∈ M := by
    intro w hw c hc
    exact ((splitWs_good M w hw).2 c hc).2
  have hlowstable : ∀ c ∈ M, lowerChar c = c := by
    intro c hc
    rw [hM] at hc
    obtain ⟨c0, hc0, rfl⟩ := List.mem_map.mp hc
    unfold TextProcessor.replChar
    by_cases hk : keepChar c0 = true
    · rw [if_pos hk]
      rcases mem_collapseWsAux (lower s) false c0 hc0 with h | rfl
      · obtain ⟨c1, -, rfl⟩ := List.mem_map.mp h
        exact lowerChar_idem c1
      · rfl
    · rw [if_neg hk]
      rfl
  have hjw : ∀ c ∈ joinWords W, lowerChar c = c ∧ TextProcessor.replChar c = c := by
    intro c hc
    rcases mem_joinWords W c hc with ⟨w, hw, hcw⟩ | rfl
    · have hcM := hmemM w hw c hcw
      exact ⟨hlowstable c hcM, replChar_mem_stable _ c (hM ▸ hcM)⟩
    · exact ⟨rfl, rfl⟩
  have h1 : lower (joinWords W) = joinWords W :=
    map_id_of_mem lowerChar _ (fun c hc => (hjw c hc).1)
  have h2 : collapseWs (joinWords W) = joinWords W := collapseWs_joinWords W hgood
  have h3 : (joinWords W).map TextProcessor.replChar = joinWords W :=
    map_id_of_mem TextProcessor.replChar _ (fun c hc => (hjw c hc).2)
  have h4 : splitWs (joinWords W) = W := splitWs_joinWords W hgood
  rw [h1, h2, h3, h4]

/-- Unfolding equation of the substitution scan on a cons cell with fuel. -/
theorem subScanFuel_cons (m : Str → Option (Str × Str)) (f : Nat) (c : Char) (t : Str) :
    subScanFuel m (f + 1) (c :: t) =
      match m (c :: t) with
      | some (mid, after) => mid ++ subScanFuel m f after
      | none => c :: subScanFuel m f t := rfl

/-- The scan at a failed match copies the head character. -/
theorem subScanFuel_cons_none (m : Str → Option (Str × Str)) (f : Nat) (c : Char) (t : Str)
    (h : m (c :: t) = none) :
    subScanFuel m (f + 1) (c :: t) = c :: subScanFuel m f t := by
  rw [subScanFuel_cons, h]

/-- The scan at a successful match emits the replacement and continues after
the match. -/
theorem subScanFuel_cons_some (m : Str → Option (Str × Str)) (f : Nat) (c : Char) (t : Str)
    (mid after : Str) (h : m (c :: t) = some (mid, after)) :
    subScanFuel m (f + 1) (c :: t) = mid ++ subScanFuel m f after := by
  rw [subScanFuel_cons, h]

/-- The scan of an empty string is empty at any fuel. -/
theorem subScanFuel_nil (m : Str → Option (Str × Str)) (f : Nat) :
    subScanFuel m f [] = [] := by
  cases f <;> rfl

/-- A right word boundary holds on a cons exactly when its head is
whitespace. -/
theorem wordBoundR_cons (d : Char) (q : Str) : wordBoundR (d :: q) = isWs d := rfl

/-- A left word boundary only looks at the last character. -/
theorem wordBoundL_append (x y : Str) (hy : y ≠ []) :
    wordBoundL (x ++ y) = wordBoundL y := by
  unfold wordBoundL
  rw [List.getLast?_append_of_ne_nil x hy]

/-- A left word boundary on a cons with nonempty tail only looks at the
tail. -/
theorem wordBoundL_cons (c : Char) (p : Str) (hp : p ≠ []) :
    wordBoundL (c :: p) = wordBoundL p := by
  have h : c :: p = [c] ++ p := rfl
  rw [h, wordBoundL_append [c] p hp]

/-- A right word boundary survives appending on the right. -/
theorem wordBoundR_append_left (x y : Str) (hx : x ≠ []) (h : wordBoundR x) :
    wordBoundR (x ++ y) := by
  unfold wordBoundR at h ⊢
  rw [List.head?_append_of_ne_nil x hx]
  exact h

/-- Heads of two decompositions of one list agree. -/
theorem heads_eq_of_append_eq (x a y b : Str) (h : x ++ a = y ++ b)
    (hx : x ≠ []) (hy : y ≠ []) : x.head? = y.head? := by
  rw [← @List.head?_append_of_ne_nil _ x a hx, h,
    @List.head?_append_of_ne_nil _ y b hy]

/-- The scan copies characters at which no match can start (alphanumeric or
whitespace heads, by the head condition `HB`). -/
theorem subScanFuel_copy_safe (m : Str → Option (Str × Str))
    (HB : ∀ c t mid after, m (c :: t) = some (mid, after) →
      c.isAlphanum = false ∧ isWs c = false) :
    ∀ (u : Str) (fuel : Nat) (v : Str),
    (∀ c ∈ u, c.isAlphanum = true ∨ isWs c = true) →
    u.length + v.length ≤ fuel →
    subScanFuel m fuel (u ++ v) = u ++ subScanFuel m (fuel - u.length) v := by
  intro u
  induction u with
  | nil => intro fuel v _ _; rfl
  | cons c u2 ih =>
    intro fuel v hsafe hlen
    rcases fuel with - | f
    · simp at hlen
    · have hnone : m (c :: (u2 ++ v)) = none := by
        rcases hm : m (c :: (u2 ++ v)) with - | ⟨mid, after⟩
        · rfl
        · obtain ⟨h1, h2⟩ := HB c (u2 ++ v) mid after hm
          rcases hsafe c (List.mem_cons_self ..) with h | h
          · rw [h1] at h; exact absurd h Bool.false_ne_true
          · rw [h2] at h; exact absurd h Bool.false_ne_true
      rw [List.cons_append, subScanFuel_cons_none m f c (u2 ++ v) hnone,
        ih f v (fun d hd => hsafe d (List.mem_cons_of_mem _ hd))
          (by simp only [List.length_cons] at hlen; omega)]
      have harith : f + 1 - (c :: u2).length = f - u2.length := by
        simp only [List.length_cons]
        omega
      rw [harith]
      rfl

/-- A word standing at the head of the input stands at the head of the scan
output, still followed by a right boundary. -/
theorem subScanFuel_head (m : Str → Option (Str × Str))
    (HB : ∀ c t mid after, m (c :: t) = some (mid, after) →
      c.isAlphanum = false ∧ isWs c = false)
    (w : Str) (hw : w ≠ []) (halnum : ∀ c ∈ w, c.isAlphanum = true) :
    ∀ (fuel : Nat) (q : Str), w.length + q.length ≤ fuel → wordBoundR q →
    ∃ q2, subScanFuel m fuel (w ++ q) = w ++ q2 ∧ wordBoundR q2 := by
  intro fuel q hlen hq
  have hcopy := subScanFuel_copy_safe m HB w fuel q
    (fun c hc => Or.inl (halnum c hc)) hlen
  rcases q with - | ⟨d, q3⟩
  · exact ⟨subScanFuel m (fuel - w.length) [], by rw [hcopy],
      by rw [subScanFuel_nil]; rfl⟩
  · have hd : isWs d = true := hq
    have hf : 1 ≤ fuel - w.length := by
      simp only [List.length_cons] at hlen
      omega
    obtain ⟨f2, hf2⟩ : ∃ f2, fuel - w.length = f2 + 1 := ⟨fuel - w.length - 1, by omega⟩
    have hnone : m (d :: q3) = none := by
      rcases hm : m (d :: q3) with - | ⟨mid, after⟩
      · rfl
      · obtain ⟨-, h2⟩ := HB d q3 mid after hm
        rw [hd] at h2
        exact absurd h2.symm Bool.false_ne_true
    refine ⟨d :: subScanFuel m f2 q3, ?_, by rw [wordBoundR_cons]; exact hd⟩
    rw [hcopy, hf2, subScanFuel_cons_none m f2 d q3 hnone]

/-- A nonempty string with a left word boundary ends in a whitespace
character. -/
theorem wordBoundL_last (p : Str) (hp : p ≠ []) (h : wordBoundL p) :
    ∃ d, p.getLast? = some d ∧ isWs d = true := by
  rcases hlast : p.getLast? with - | d
  · exact absurd (List.getLast?_eq_none_iff.mp hlast) hp
  · unfold wordBoundL at h
    rw [hlast] at h
    exact ⟨d, rfl, by simpa using h⟩

/-- A nonempty string with a right word boundary starts with a whitespace
character. -/
theorem wordBoundR_head (q : Str) (hq : q ≠ []) (h : wordBoundR q) :
    ∃ d, q.head? = some d ∧ isWs d = true := by
  rcases q with - | ⟨d, q2⟩
  · exact absurd rfl hq
  · exact ⟨d, rfl, h⟩

/-- A string ending in a nonempty whitespace-free block has no left word
boundary. -/
theorem boundL_append_no_ws (y v : Str) (hv : v ≠ [])
    (hvws : ∀ c ∈ v, isWs c = false) (h : wordBoundL (y ++ v)) : False := by
  obtain ⟨d, hd, hdws⟩ := wordBoundL_last (y ++ v) (by simp [hv]) h
  rw [List.getLast?_append_of_ne_nil y hv] at hd
  rw [hvws d (List.mem_of_mem_getLast? hd)] at hdws
  exact Bool.false_ne_true hdws

/-- A string starting with a nonempty whitespace-free block has no right
word boundary. -/
theorem boundR_append_no_ws (v y : Str) (hv : v ≠ [])
    (hvws : ∀ c ∈ v, isWs c = false) (h : wordBoundR (v ++ y)) : False := by
  obtain ⟨d, hd, hdws⟩ := wordBoundR_head (v ++ y) (by simp [hv]) h
  rw [List.head?_append_of_ne_nil v hv] at hd
  rw [hvws d (List.mem_of_mem_head? hd)] at hdws
  exact Bool.false_ne_true hdws

/-- Two appends with equal values cannot start with an alphanumeric word on
one side and a non-alphanumeric block on the other. -/
theorem heads_clash (w q c after : Str) (heq : w ++ q = c ++ after)
    (hw : w ≠ []) (hc : c ≠ [])
    (halnum : ∀ x ∈ w, x.isAlphanum = true)
    (hcnon : ∀ x ∈ c, x.isAlphanum = false) : False := by
  have hheads := heads_eq_of_append_eq w q c after heq hw hc
  rcases w with - | ⟨w0, wt⟩
  · exact hw rfl
  · rcases c with - | ⟨c0, ct⟩
    · exact hc rfl
    · simp only [List.head?_cons, Option.some.injEq] at hheads
      have h1 := halnum w0 (List.mem_cons_self ..)
      have h2 := hcnon c0 (List.mem_cons_self ..)
      rw [hheads, h2] at h1
      exact Bool.false_ne_true h1

/-- Locating a whitespace-delimited alphanumeric word against a match
decomposition `u ++ mid ++ v ++ after` of the same string, where `u` and `v`
are nonempty whitespace-free delimiter literals and `v` is non-alphanumeric:
the word sits properly inside the replacement text `mid`, or properly inside
the remainder `after`. -/
theorem locate_word (w p q u mid v after : Str)
    (heq : p ++ (w ++ q) = u ++ (mid ++ (v ++ after)))
    (hw : w ≠ []) (halnum : ∀ c ∈ w, c.isAlphanum = true)
    (hp : p ≠ []) (hpL : wordBoundL p) (hqR : wordBoundR q)
    (huws : ∀ c ∈ u, isWs c = false)
    (hv : v ≠ []) (hvc : ∀ c ∈ v, isWs c = false ∧ c.isAlphanum = false) :
    (∃ m1 m2, mid = m1 ++ (w ++ m2) ∧ m1 ≠ [] ∧ wordBoundL m1 ∧ m2 ≠ [] ∧ wordBoundR m2 ∧
      q = m2 ++ (v ++ after))
    ∨ (∃ p4, after = p4 ++ (w ++ q) ∧ p4 ≠ [] ∧ wordBoundL p4) := by
  have hvws : ∀ c ∈ v, isWs c = false := fun c hc => (hvc c hc).1
  have hvna : ∀ c ∈ v, c.isAlphanum = false := fun c hc => (hvc c hc).2
  rcases List.append_eq_append_iff.mp heq with ⟨a2, hu2, -⟩ | ⟨c2, hp2, hrest⟩
  · exfalso
    obtain ⟨d, hd, hdws⟩ := wordBoundL_last p hp hpL
    have hdu : d ∈ u := hu2 ▸ List.mem_append_left a2 (List.mem_of_mem_getLast? hd)
    rw [huws d hdu] at hdws
    exact Bool.false_ne_true hdws
  · rcases List.append_eq_append_iff.mp hrest.symm with ⟨d2, hmid, hva⟩ | ⟨e2, hc2, hwq⟩
    · rcases List.append_eq_append_iff.mp hva with ⟨a3, hd2, hq3⟩ | ⟨c3, hw3, hvafter⟩
      · have hc2ne : c2 ≠ [] := by
          rintro rfl
          rw [List.append_nil] at hp2
          obtain ⟨d, hd, hdws⟩ := wordBoundL_last p hp hpL
          have hdu : d ∈ u := hp2 ▸ List.mem_of_mem_getLast? hd
          rw [huws d hdu] at hdws
          exact Bool.false_ne_true hdws
        have hc2L : wordBoundL c2 := by
          rw [hp2, wordBoundL_append u c2 hc2ne] at hpL
          exact hpL
        have ha3ne : a3 ≠ [] := by
          rintro rfl
          rw [List.nil_append] at hq3
          exact boundR_append_no_ws v after hv hvws (hq3 ▸ hqR)
        have ha3R : wordBoundR a3 := by
          have h2 := hq3 ▸ hqR
          unfold wordBoundR at h2 ⊢
          rw [List.head?_append_of_ne_nil a3 ha3ne] at h2
          exact h2
        exact Or.inl ⟨c2, a3, by rw [hmid, hd2], hc2ne, hc2L, ha3ne, ha3R, hq3⟩
      · exfalso
        by_cases hc3nil : c3 = []
        · subst hc3nil
          rw [List.nil_append] at hvafter
          exact boundR_append_no_ws v after hv hvws (hvafter ▸ hqR)
        · exact heads_clash c3 q v after hvafter.symm hc3nil hv
            (fun x hx => halnum x (hw3 ▸ List.mem_append_right d2 hx)) hvna
    · rcases List.append_eq_append_iff.mp hwq with ⟨a4, he2, hafter⟩ | ⟨c4, hv4, hafter2⟩
      · have ha4ne : a4 ≠ [] := by
          rintro rfl
          rw [List.append_nil] at he2
          subst he2
          rw [hc2, ← List.append_assoc] at hp2
          exact boundL_append_no_ws (u ++ mid) e2 hv hvws (hp2 ▸ hpL)
        have ha4L : wordBoundL a4 := by
          rw [hp2, hc2, he2] at hpL
          rw [show u ++ (mid ++ (v ++ a4)) = (u ++ (mid ++ v)) ++ a4 by
            simp [List.append_assoc]] at hpL
          rw [wordBoundL_append _ a4 ha4ne] at hpL
          exact hpL
        exact Or.inr ⟨a4, hafter, ha4ne, ha4L⟩
      · exfalso
        by_cases hc4nil : c4 = []
        · subst hc4nil
          rw [List.append_nil] at hv4
          rw [hc2, ← hv4, ← List.append_assoc] at hp2
          exact boundL_append_no_ws (u ++ mid) v hv hvws (hp2 ▸ hpL)
        · exact heads_clash w q c4 after hafter2 hw hc4nil halnum
            (fun x hx => hvna x (hv4 ▸ List.mem_append_right e2 hx))

/-- The scan keeps a whitespace-delimited alphanumeric word of its input,
with its boundaries, and keeps some text on its left when there was some. -/
theorem scan_keep (m : Str → Option (Str × Str))
    (HB : ∀ c t mid after, m (c :: t) = some (mid, after) →
      c.isAlphanum = false ∧ isWs c = false)
    (HA : ∀ l mid after, m l = some (mid, after) →
      ∃ u v, l = u ++ (mid ++ (v ++ after)) ∧ (∀ c ∈ u, isWs c = false) ∧ v ≠ [] ∧
        ∀ c ∈ v, isWs c = false ∧ c.isAlphanum = false)
    (HL : ∀ l mid after, m l = some (mid, after) → after.length < l.length)
    (w : Str) (hw : w ≠ []) (halnum : ∀ c ∈ w, c.isAlphanum = true) :
    ∀ (fuel : Nat) (l p q : Str), l = p ++ (w ++ q) → l.length ≤ fuel →
      wordBoundL p → wordBoundR q →
      ∃ p2 q2, subScanFuel m fuel l = p2 ++ (w ++ q2) ∧ wordBoundL p2 ∧ wordBoundR q2 ∧
        (p ≠ [] → p2 ≠ []) := by
  intro fuel
  induction fuel with
  | zero =>
    intro l p q hl hlen hpL hqR
    have hl0 : l = [] := List.length_eq_zero.mp (Nat.le_zero.mp hlen)
    rw [hl0] at hl
    exact absurd (List.append_eq_nil.mp (List.append_eq_nil.mp hl.symm).2).1 hw
  | succ f ih =>
    intro l p q hl hlen hpL hqR
    rcases p with - | ⟨c, p3⟩
    · rw [List.nil_append] at hl
      subst hl
      obtain ⟨q2, hs, hq2⟩ := subScanFuel_head m HB w hw halnum (f + 1) q
        (by simpa [List.length_append] using hlen) hqR
      exact ⟨[], q2, by rw [hs, List.nil_append], rfl, hq2, fun h => absurd rfl h⟩
    · have hl2 : l = c :: (p3 ++ (w ++ q)) := by rw [hl]; rfl
      rcases hm : m l with - | ⟨mid, after⟩
      · rw [hl2] at hm ⊢
        rw [subScanFuel_cons_none m f c _ hm]
        have hp3L : wordBoundL p3 := by
          rcases p3 with - | ⟨d, p4⟩
          · rfl
          · rw [wordBoundL_cons c (d :: p4) (List.cons_ne_nil _ _)] at hpL
            exact hpL
        obtain ⟨p2, q2, hs, hp2L, hq2R, hK⟩ := ih (p3 ++ (w ++ q)) p3 q rfl
          (by rw [hl2, List.length_cons] at hlen; omega) hp3L hqR
        refine ⟨c :: p2, q2, by rw [hs]; rfl, ?_, hq2R, fun _ => List.cons_ne_nil _ _⟩
        rcases p2 with - | ⟨e, p5⟩
        · have hp30 : p3 = [] := by
            by_contra hne
            exact (hK hne) rfl
          rw [hp30] at hpL
          exact hpL
        · rw [wordBoundL_cons c (e :: p5) (List.cons_ne_nil _ _)]
          exact hp2L
      · obtain ⟨u, v, hlu, huws, hv, hvc⟩ := HA l mid after hm
        have heq2 : (c :: p3) ++ (w ++ q) = u ++ (mid ++ (v ++ after)) := by
          rw [← hl, ← hlu]
        rcases locate_word w (c :: p3) q u mid v after heq2 hw halnum
            (List.cons_ne_nil _ _) hpL hqR huws hv hvc with
          ⟨m1, m2, hmid, hm1, hm1L, hm2, hm2R, hq2⟩ | ⟨p4, hafter, hp4, hp4L⟩
        · rw [hl2] at hm ⊢
          rw [subScanFuel_cons_some m f c _ mid after hm]
          refine ⟨m1, m2 ++ subScanFuel m f after, ?_, hm1L,
            wordBoundR_append_left m2 _ hm2 hm2R, fun _ => hm1⟩
          rw [hmid]
          simp [List.append_assoc]
        · have hflen : after.length ≤ f := by
            have := HL l mid after hm
            rw [hl2, List.length_cons] at this
            rw [hl2, List.length_cons] at hlen
            omega
          obtain ⟨p5, q5, hs, hp5L, hq5R, hK⟩ := ih after p4 q hafter hflen hp4L hqR
          have hp5 : p5 ≠ [] := hK hp4
          rw [hl2] at hm ⊢
          rw [subScanFuel_cons_some m f c _ mid after hm]
          refine ⟨mid ++ p5, q5, ?_, ?_, hq5R, fun _ h0 => hp5 (List.append_eq_nil.mp h0).2⟩
          · rw [hs]
            simp [List.append_assoc]
          · rw [wordBoundL_append mid p5 hp5]
            exact hp5L

/-- A left-to-right substitution scan whose matcher starts only at
non-alphanumeric non-whitespace characters, consumes whitespace-free
delimiters around an emitted middle, and strictly shrinks its input,
preserves every whitespace-delimited alphanumeric word. -/
theorem subScan_occurs (m : Str → Option (Str × Str))
    (HB : ∀ c t mid after, m (c :: t) = some (mid, after) →
      c.isAlphanum = false ∧ isWs c = false)
    (HA : ∀ l mid after, m l = some (mid, after) →
      ∃ u v, l = u ++ (mid ++ (v ++ after)) ∧ (∀ c ∈ u, isWs c = false) ∧ v ≠ [] ∧
        ∀ c ∈ v, isWs c = false ∧ c.isAlphanum = false)
    (HL : ∀ l mid after, m l = some (mid, after) → after.length < l.length)
    (w : Str) (hw : w ≠ []) (halnum : ∀ c ∈ w, c.isAlphanum = true) (l : Str)
    (hocc : OccursWord w l) : OccursWord w (subScan m l) := by
  obtain ⟨p, q, hl, hpL, hqR⟩ := hocc
  obtain ⟨p2, q2, hs, hp2L, hq2R, -⟩ := scan_keep m HB HA HL w hw halnum l.length l p q
    (by rw [hl, List.append_assoc]) le_rfl hpL hqR
  exact ⟨p2, q2, by rw [subScan, hs, List.append_assoc], hp2L, hq2R⟩

/-- A successful `wrapMatch` decomposes its input as the literal prefix, the
captured middle, the literal suffix and the remainder. -/
theorem wrapMatch_decomp (pre : Str) (bad : Char) (post : Str)
    (l mid after : Str) (h : wrapMatch pre bad post l = some (mid, after)) :
    l = pre ++ (mid ++ (post ++ after)) := by
  unfold wrapMatch at h
  split at h
  · rename_i hpre
    dsimp only at h
    split at h
    · rename_i hcond
      rw [Bool.and_eq_true] at hcond
      rw [Option.some.injEq, Prod.mk.injEq] at h
      obtain ⟨hmid, ha⟩ := h
      obtain ⟨t, ht⟩ := List.isPrefixOf_iff_prefix.mp hpre
      obtain ⟨t2, ht2⟩ := List.isPrefixOf_iff_prefix.mp hcond.2
      have hsplit : List.takeWhile (fun c => c != bad) (List.drop pre.length l) ++
          List.dropWhile (fun c => c != bad) (List.drop pre.length l) =
          List.drop pre.length l := List.takeWhile_append_dropWhile ..
      rw [← hmid, ← ha]
      have hd : List.drop post.length
          (List.dropWhile (fun c => c != bad) (List.drop pre.length l)) = t2 := by
        rw [← ht2, List.drop_left]
      rw [hd, ht2, hsplit, ← ht, List.drop_left]
    · exact absurd h (by simp)
  · exact absurd h (by simp)

/-- A `wrapMatch` for a pattern with a nonempty literal prefix only fires
when the input starts with the prefix head. -/
theorem wrapMatch_headc (c0 : Char) (pre1 : Str) (bad : Char) (post : Str)
    (c : Char) (t mid after : Str)
    (h : wrapMatch (c0 :: pre1) bad post (c :: t) = some (mid, after)) : c = c0 := by
  unfold wrapMatch at h
  split at h
  · rename_i hpre
    obtain ⟨t3, ht3⟩ := List.isPrefixOf_iff_prefix.mp hpre
    rw [List.cons_append] at ht3
    injection ht3 with h1 h2
    exact h1.symm
  · exact absurd h (by simp)

/-- `re.sub` of the pattern `pre([^bad]+)post` with replacement `\1`, where
the prefix starts with a non-alphanumeric non-whitespace character, both
delimiters are whitespace-free and the suffix is nonempty and
non-alphanumeric, preserves whitespace-delimited alphanumeric words. -/
theorem subWrap_occurs (c0 : Char) (pre1 : Str) (bad : Char) (post : Str)
    (hc0a : c0.isAlphanum = false) (hc0w : isWs c0 = false)
    (hprews : ∀ c ∈ c0 :: pre1, isWs c = false)
    (hpost : post ≠ []) (hpostc : ∀ c ∈ post, isWs c = false ∧ c.isAlphanum = false)
    (w : Str) (hw : w ≠ []) (halnum : ∀ c ∈ w, c.isAlphanum = true) (l : Str)
    (hocc : OccursWord w l) : OccursWord w (subWrap (c0 :: pre1) bad post l) := by
  refine subScan_occurs (wrapMatch (c0 :: pre1) bad post) ?_ ?_ ?_ w hw halnum l hocc
  · intro c t mid after hm
    rw [wrapMatch_headc c0 pre1 bad post c t mid after hm]
    exact ⟨hc0a, hc0w⟩
  · intro l2 mid after hm
    exact ⟨c0 :: pre1, post, wrapMatch_decomp (c0 :: pre1) bad post l2 mid after hm,
      hprews, hpost, hpostc⟩
  · exact wrapMatchBound (c0 :: pre1) bad post

/-- One inline RST role substitution preserves whitespace-delimited
alphanumeric words, provided the role name itself has no whitespace. -/
theorem subRole_occurs (role : Str) (hrole : ∀ c ∈ role, isWs c = false)
    (w : Str) (hw : w ≠ []) (halnum : ∀ c ∈ w, c.isAlphanum = true) (l : Str)
    (hocc : OccursWord w l) : OccursWord w (subRole role l) := by
  refine subWrap_occurs ':' (role ++ [':', '\x60']) '\x60' ['\x60']
    (by decide) (by decide) ?_ (by simp) (by decide) w hw halnum l hocc
  intro c hc
  rcases List.mem_cons.mp hc with h | h
  · rw [h]; decide
  · rcases List.mem_append.mp h with h2 | h2
    · exact hrole c h2
    · rcases List.mem_cons.mp h2 with h3 | h3
      · rw [h3]; decide
      · rw [List.mem_singleton.mp h3]; decide

/-- The five inline role substitutions of clean_rst_content together
preserve whitespace-delimited alphanumeric words. -/
theorem cleanInlineRst_occurs (w : Str) (hw : w ≠ [])
    (halnum : ∀ c ∈ w, c.isAlphanum = true) (l : Str)
    (hocc : OccursWord w l) : OccursWord w (cleanInlineRst l) := by
  unfold cleanInlineRst
  apply subRole_occurs _ (by decide) w hw halnum
  apply subRole_occurs _ (by decide) w hw halnum
  apply subRole_occurs _ (by decide) w hw halnum
  apply subRole_occurs _ (by decide) w hw halnum
  exact subRole_occurs _ (by decide) w hw halnum l hocc

/-- Unfolding equation of `cleanRstLines` at a cons cell. -/
theorem cleanRstLines_cons (inD inC : Bool) (line : Str) (ls : List Str) :
    cleanRstLines inD inC (line :: ls) =
      if startsWith (String.toList "..") (strip line) &&
          !startsWith (String.toList ".. _") (strip line) then
        cleanRstLines
          (if containsSub (String.toList "::") (strip line) then true else inD) inC ls
      else if endsWith (String.toList "::") (strip line) then
        line :: cleanRstLines inD true ls
      else if inD then
        if !line.isEmpty && !(line.headD ' ').isWhitespace then
          cleanInlineRst line :: cleanRstLines false
            (if inC && !line.isEmpty && !(line.headD ' ').isWhitespace then false else inC) ls
        else
          cleanRstLines true
            (if inC && !line.isEmpty && !(line.headD ' ').isWhitespace then false else inC) ls
      else
        cleanInlineRst line :: cleanRstLines inD
          (if inC && !line.isEmpty && !(line.headD ' ').isWhitespace then false else inC) ls :=
  rfl

/-- Unfolding equation of `rstEmittedAt` at a cons cell. -/
theorem rstEmittedAt_cons (inD inC : Bool) (line : Str) (ls : List Str) (i : Nat) :
    rstEmittedAt inD inC (line :: ls) i =
      if startsWith (String.toList "..") (strip line) &&
          !startsWith (String.toList ".. _") (strip line) then
        if i = 0 then false
        else
          rstEmittedAt
            (if containsSub (String.toList "::") (strip line) then true else inD)
            inC ls (i - 1)
      else if endsWith (String.toList "::") (strip line) then
        if i = 0 then true else rstEmittedAt inD true ls (i - 1)
      else if inD then
        if !line.isEmpty && !(line.headD ' ').isWhitespace then
          if i = 0 then true
          else
            rstEmittedAt false
              (if inC && !line.isEmpty && !(line.headD ' ').isWhitespace then false else inC)
              ls (i - 1)
        else
          if i = 0 then false
          else
            rstEmittedAt true
              (if inC && !line.isEmpty && !(line.headD ' ').isWhitespace then false else inC)
              ls (i - 1)
      else
        if i = 0 then true
        else
          rstEmittedAt inD
            (if inC && !line.isEmpty && !(line.headD ' ').isWhitespace then false else inC)
            ls (i - 1) :=
  rfl

/-- A word occurring in a member line occurs in the newline join of the
lines: the inserted separators are whitespace, so the boundaries survive. -/
theorem joinLines_occurs (w : Str) :
    ∀ (lines : List Str) (out : Str), out ∈ lines →
      OccursWord w out → OccursWord w (joinLines lines) := by
  intro lines
  induction lines with
  | nil => intro out h _; exact absurd h (List.not_mem_nil out)
  | cons l ls ih =>
    intro out hmem hocc
    rcases ls with - | ⟨l2, ls2⟩
    · have hl : out = l := by simpa using hmem
      rw [hl] at hocc
      exact hocc
    · rcases List.mem_cons.mp hmem with h | h
      · subst h
        obtain ⟨p, q, hl, hpL, hqR⟩ := hocc
        refine ⟨p, q ++ '\n' :: joinLines (l2 :: ls2), ?_, hpL, ?_⟩
        · rw [show joinLines (out :: l2 :: ls2) = out ++ '\n' :: joinLines (l2 :: ls2)
            from rfl, hl]
          simp [List.append_assoc]
        · rcases q with - | ⟨d, q2⟩
          · rw [List.nil_append, wordBoundR_cons]
            decide
          · rw [List.cons_append, wordBoundR_cons]
            rw [wordBoundR_cons] at hqR
            exact hqR
      · obtain ⟨p, q, hl, hpL, hqR⟩ := ih out h hocc
        refine ⟨l ++ '\n' :: p, q, ?_, ?_, hqR⟩
        · rw [show joinLines (l :: l2 :: ls2) = l ++ '\n' :: joinLines (l2 :: ls2)
            from rfl, hl]
          simp [List.append_assoc]
        · rcases p with - | ⟨e, p2⟩
          · rw [show l ++ '\n' :: ([] : Str) = l ++ ['\n'] from rfl,
              wordBoundL_append l ['\n'] (by simp)]
            decide
          · rw [show l ++ '\n' :: e :: p2 = (l ++ ['\n']) ++ (e :: p2) by simp,
              wordBoundL_append (l ++ ['\n']) (e :: p2) (List.cons_ne_nil _ _)]
            exact hpL

/-- A whitespace-delimited alphanumeric word on a line that the
clean_rst_content loop emits (as told by `rstEmittedAt`) occurs in one of
the loop's output lines. -/
theorem cleanRstLines_keep (w : Str) (hw : w ≠ [])
    (halnum : ∀ c ∈ w, c.isAlphanum = true) :
    ∀ (ls : List Str) (inD inC : Bool) (i : Nat),
      rstEmittedAt inD inC ls i = true →
      OccursWord w (ls.getD i []) →
      ∃ out ∈ cleanRstLines inD inC ls, OccursWord w out := by
  intro ls
  induction ls with
  | nil =>
    intro inD inC i hi _
    exact absurd hi (by simp [rstEmittedAt])
  | cons line ls ih =>
    intro inD inC i hi hocc
    rw [rstEmittedAt_cons] at hi
    rw [cleanRstLines_cons]
    by_cases h1 : (startsWith (String.toList "..") (strip line) &&
        !startsWith (String.toList ".. _") (strip line)) = true
    · rw [if_pos h1] at hi ⊢
      rcases i with - | j
      · rw [if_pos rfl] at hi
        exact absurd hi (by simp)
      · rw [if_neg (Nat.succ_ne_zero j), Nat.add_sub_cancel] at hi
        exact ih _ inC j hi (by simpa using hocc)
    · rw [if_neg h1] at hi ⊢
      by_cases h2 : endsWith (String.toList "::") (strip line) = true
      · rw [if_pos h2] at hi ⊢
        rcases i with - | j
        · exact ⟨line, List.mem_cons_self _ _, by simpa using hocc⟩
        · rw [if_neg (Nat.succ_ne_zero j), Nat.add_sub_cancel] at hi
          obtain ⟨out, hout, ho⟩ := ih inD true j hi (by simpa using hocc)
          exact ⟨out, List.mem_cons_of_mem _ hout, ho⟩
      · rw [if_neg h2] at hi ⊢
        by_cases h3 : inD = true
        · rw [if_pos h3] at hi ⊢
          by_cases h4 : (!line.isEmpty && !(line.headD ' ').isWhitespace) = true
          · rw [if_pos h4] at hi ⊢
            rcases i with - | j
            · exact ⟨cleanInlineRst line, List.mem_cons_self _ _,
                cleanInlineRst_occurs w hw halnum line (by simpa using hocc)⟩
            · rw [if_neg (Nat.succ_ne_zero j), Nat.add_sub_cancel] at hi
              obtain ⟨out, hout, ho⟩ := ih false _ j hi (by simpa using hocc)
              exact ⟨out, List.mem_cons_of_mem _ hout, ho⟩
          · rw [if_neg h4] at hi ⊢
            rcases i with - | j
            · rw [if_pos rfl] at hi
              exact absurd hi (by simp)
            · rw [if_neg (Nat.succ_ne_zero j), Nat.add_sub_cancel] at hi
              exact ih true _ j hi (by simpa using hocc)
        · rw [if_neg h3] at hi ⊢
          rcases i with - | j
          · exact ⟨cleanInlineRst line, List.mem_cons_self _ _,
              cleanInlineRst_occurs w hw halnum line (by simpa using hocc)⟩
          · rw [if_neg (Nat.succ_ne_zero j), Nat.add_sub_cancel] at hi
            obtain ⟨out, hout, ho⟩ := ih inD _ j hi (by simpa using hocc)
            exact ⟨out, List.mem_cons_of_mem _ hout, ho⟩

/-- C9 counterexample: the word "banana" occurs whitespace-delimited and
unformatted in the RST comment line ".. the banana word", but
clean_rst_content drops the whole comment line, so the cleaned output
(which is empty) no longer contains it. -/
theorem clean_rst_drops_comment_word :
    OccursWord (String.toList "banana") (String.toList ".. the banana word") ∧
    ¬ OccursWord (String.toList "banana")
      (clean_rst_content (String.toList ".. the banana word")) := by
  constructor
  · exact ⟨String.toList ".. the ", String.toList " word", by decide, by decide, by decide⟩
  · rintro ⟨p, q, h, -, -⟩
    rw [show clean_rst_content (String.toList ".. the banana word") = [] from by decide] at h
    exact absurd (List.append_eq_nil.mp (List.append_eq_nil.mp h.symm).1).2 (by decide)

/-- C9: for every RST content and every nonempty alphanumeric word occurring
whitespace-delimited on a line that clean_rst_content emits (the lines its
loop keeps, as characterized by `rstEmittedAt` from the initial flags), the
word still occurs whitespace-delimited in the cleaned output: the inline
role substitutions delete only markup, never the words they wrap.  (Words on
dropped comment or directive lines are deleted with their line, which is why
the emission hypothesis is needed.) -/
theorem clean_rst_keeps_emitted_words (content w : Str) (i : Nat)
    (hw : w ≠ []) (halnum : ∀ c ∈ w, c.isAlphanum = true)
    (hemit : rstEmittedAt false false (splitLines content) i = true)
    (hocc : OccursWord w ((splitLines content).getD i [])) :
    OccursWord w (clean_rst_content content) := by
  obtain ⟨out, hout, ho⟩ :=
    cleanRstLines_keep w hw halnum (splitLines content) false false i hemit hocc
  unfold clean_rst_content
  exact joinLines_occurs w (cleanRstLines false false (splitLines content)) out hout ho

/-- C9 witness: the word "banana" on the kept line "hello banana world"
survives cleaning. -/
theorem clean_rst_keeps_emitted_words_witness :
    OccursWord (String.toList "banana")
      (clean_rst_content (String.toList "hello banana world")) :=
  clean_rst_keeps_emitted_words (String.toList "hello banana world")
    (String.toList "banana") 0 (by decide) (by decide) (by decide)
    ⟨String.toList "hello ", String.toList " world", by decide, by decide, by decide⟩

end Theorems
